import Mathlib

/-!
Verification development for the gitaimsg commit-message pipeline
(source: scripts/gitaimsg.py).

Python strings are modelled as lists of unicode characters (`PyStr`).
Python's `str.lower` is modelled on the ASCII range (every comparison in the
source involves only ASCII prefixes); `unicodedata.normalize("NFC", ...)` is
the one primitive that is not re-implemented: the sanitizer takes the
normalization function as an explicit parameter `nfc`, and each theorem either
holds for every such function or instantiates it at inputs where NFC is the
identity (pure-ASCII data).
-/

/-- Python strings, modelled as lists of unicode scalar values. -/
abbrev PyStr := List Char

/-- Characters for which Python's `str.isspace` is true (the characters
stripped by `str.strip()` and by `int()` around a numeral). -/
def pyIsSpace (c : Char) : Bool :=
  c ∈ ([' ', '\t', '\n', '\u000d', '\u000b', '\u000c',
        '\u001c', '\u001d', '\u001e', '\u001f', '\u0085', '\u00a0',
        '\u1680', '\u2000', '\u2001', '\u2002', '\u2003', '\u2004', '\u2005',
        '\u2006', '\u2007', '\u2008', '\u2009', '\u200a',
        '\u2028', '\u2029', '\u202f', '\u205f', '\u3000'] : List Char)

/-- Python `str.strip()`: drop leading and trailing whitespace. -/
def pyStrip (s : PyStr) : PyStr :=
  ((s.dropWhile pyIsSpace).reverse.dropWhile pyIsSpace).reverse

/-- Line-boundary characters of Python `str.splitlines`. -/
def isLineBoundary (c : Char) : Bool :=
  c ∈ (['\n', '\u000d', '\u000b', '\u000c', '\u001c', '\u001d', '\u001e',
        '\u0085', '\u2028', '\u2029'] : List Char)

/-- Collapse each carriage-return/newline pair into a single newline,
scanning left to right.  Python's `str.splitlines` treats such a pair as a
single line boundary; after this pass every line-boundary character stands
for exactly one boundary. -/
def crlfToLf : PyStr → PyStr
  | '\u000d' :: '\n' :: r => '\n' :: crlfToLf r
  | c :: r => c :: crlfToLf r
  | [] => []

/-- Worker for `pySplitlines`: `cur` is the current line accumulated in
reverse; a trailing boundary does not open a new empty line. -/
def splitlinesGo (cur : PyStr) : PyStr → List PyStr
  | [] => [cur.reverse]
  | c :: rest =>
    if isLineBoundary c then
      cur.reverse :: (if rest = [] then [] else splitlinesGo [] rest)
    else
      splitlinesGo (c :: cur) rest

/-- Python `str.splitlines()`. -/
def pySplitlines (s : PyStr) : List PyStr :=
  if s = [] then [] else splitlinesGo [] (crlfToLf s)

/-- Python `str.lower()`, modelled on the ASCII range. -/
def lowerStr (s : PyStr) : PyStr := s.map Char.toLower

/-- First element of `pySplitlines`, i.e. `msg.splitlines()[0]` (with `[]`
standing in for the out-of-range case, which the source never reaches because
the candidate is non-empty there). -/
def firstSplitline (s : PyStr) : PyStr := (pySplitlines s).headD []

/-- The error-signature prefixes `ERROR_PREFIXES` of the source. -/
def ERROR_PREFIXES : List PyStr :=
  ["error:".toList, "unexpected token".toList, "syntaxerror".toList,
   "uncaught".toList, "traceback".toList, "referenceerror".toList,
   "typeerror".toList]

/-- The nine commit types enumerated in the regex `CC_SUBJECT`. -/
def CC_TYPES : List PyStr :=
  ["feat".toList, "fix".toList, "chore".toList, "docs".toList,
   "refactor".toList, "test".toList, "build".toList, "style".toList,
   "perf".toList]

/-- Tail of the `CC_SUBJECT` regex after the optional scope: a colon, a
space, then 1 to 72 characters other than a newline, followed by the end of
the string or a single trailing newline (the semantics of an unanchored
final dollar in a Python regex without MULTILINE). -/
def ccColonPart (r : PyStr) : Bool :=
  match r with
  | ':' :: ' ' :: rest =>
    let core := rest.takeWhile (fun c => c ≠ '\n')
    let tail := rest.drop core.length
    decide (1 ≤ core.length) && decide (core.length ≤ 72) &&
      (tail = [] || tail = ['\n'])
  | _ => false

/-- Part of `CC_SUBJECT` after the type token: an optional parenthesized
scope with no right parenthesis inside, then `ccColonPart`.  Backtracking of
the regex amounts to the disjunction of the two alternatives. -/
def ccTail (r : PyStr) : Bool :=
  ccColonPart r ||
    (match r with
     | '(' :: rest =>
       let inner := rest.takeWhile (fun c => c ≠ ')')
       let rest2 := rest.drop inner.length
       (decide (inner ≠ [])) &&
         (match rest2 with
          | ')' :: r2 => ccColonPart r2
          | _ => false)
     | _ => false)

/-- The regex `CC_SUBJECT` of the source,
`^(feat|fix|chore|docs|refactor|test|build|style|perf)(\([^)]+\))?: .{1,72}$`
 compiled with IGNORECASE, applied via `re.match` (anchored at the start). -/
def ccSubjectMatch (s : PyStr) : Bool :=
  CC_TYPES.any fun tok =>
    tok.isPrefixOf (lowerStr s) && ccTail (s.drop tok.length)

/-- The repair branch of `validate_or_fallback`: given the first line, split
at the first colon into `t` and `rest` and rebuild
`t[:50] ++ ": " ++ rest.strip()[:max(0, 72-len(t)-2)]` (natural-number
subtraction models the `max(0, ...)`). -/
def repairSubject (first : PyStr) : PyStr :=
  let t := first.takeWhile (fun c => c ≠ ':')
  let rest := first.drop (t.length + 1)
  t.take 50 ++ ':' :: ' ' :: (pyStrip rest).take (72 - t.length - 2)

/-- Join lines with newline characters. -/
def joinNL : List PyStr → PyStr
  | [] => []
  | [l] => l
  | l :: ls => l ++ '\n' :: joinNL ls

/-- The accept branch of `validate_or_fallback`: the stripped first line plus
the following lines that are non-blank, clamped to six lines in total, joined
with newlines, and the result stripped. -/
def acceptClamp (msg : PyStr) : PyStr :=
  let first := pyStrip (firstSplitline msg)
  let lines := first :: ((pySplitlines msg).drop 1).filter (fun l => pyStrip l ≠ [])
  pyStrip (joinNL (lines.take 6))

/-- The function `validate_or_fallback(msg, fallback)` of the source. -/
def validate_or_fallback (msg fallback : PyStr) : PyStr :=
  if msg = [] then fallback
  else
    let first := pyStrip (firstSplitline msg)
    let low := lowerStr first
    if ERROR_PREFIXES.any (fun p => p.isPrefixOf low) then fallback
    else if ccSubjectMatch first then acceptClamp msg
    else if first.contains ':' then repairSubject first
    else fallback

/-- Substring test: true when `pat` occurs contiguously in the string. -/
def hasSub (pat : PyStr) : PyStr → Bool
  | [] => pat.isPrefixOf []
  | c :: rest => pat.isPrefixOf (c :: rest) || hasSub pat rest

/-- Python `s.replace(old, new)` for a one-character `old`: left-to-right
replacement of every occurrence. -/
def replace1 (a : Char) (new : PyStr) : PyStr → PyStr
  | [] => []
  | c :: rest =>
    if c = a then new ++ replace1 a new rest else c :: replace1 a new rest

/-- Python `s.replace(old, new)` for a two-character `old`: left-to-right
non-overlapping replacement. -/
def replace2 (a b : Char) (new : PyStr) : PyStr → PyStr
  | [] => []
  | [c] => [c]
  | c :: d :: rest =>
    if c = a ∧ d = b then new ++ replace2 a b new rest
    else c :: replace2 a b new (d :: rest)

/-- Python `s.replace(old, new)` for a three-character `old`: left-to-right
non-overlapping replacement. -/
def replace3 (a b c : Char) (new : PyStr) : PyStr → PyStr
  | x :: y :: z :: rest =>
    if x = a ∧ y = b ∧ z = c then new ++ replace3 a b c new rest
    else x :: replace3 a b c new (y :: z :: rest)
  | s => s

/-- Python `s.split(sep, maxsplit)` for a one-character separator: at most
`maxsplit` splits, the remainder is kept whole. -/
def pySplitLimit (sep : Char) : Nat → PyStr → List PyStr
  | 0, s => [s]
  | n + 1, s =>
    let pre := s.takeWhile (fun c => c ≠ sep)
    match s.drop pre.length with
    | [] => [pre]
    | _ :: r => pre :: pySplitLimit sep n r

/-- Decimal value of an ASCII digit. -/
def digitVal (c : Char) : Nat := c.toNat - 48

/-- Digit run with single underscores allowed between digits, as accepted by
Python `int()`; the first character has already been checked to be a digit. -/
def parseDigitsUS (acc : Nat) : PyStr → Option Nat
  | [] => some acc
  | c :: rest =>
    if c.isDigit then parseDigitsUS (10 * acc + digitVal c) rest
    else if c = '_' then
      match rest with
      | d :: r2 => if d.isDigit then parseDigitsUS (10 * acc + digitVal d) r2 else none
      | [] => none
    else none

/-- Python `int(s)` on a decimal string: surrounding whitespace stripped, an
optional sign, then ASCII digits with single underscores between digits;
`none` models a ValueError.  (Non-ASCII decimal digits are not modelled; no
call site can produce them after the replacements the source applies.) -/
def pyInt (s : PyStr) : Option Int :=
  match pyStrip s with
  | '+' :: r =>
    (match r with
     | c :: _ => if c.isDigit then (parseDigitsUS 0 r).map (fun n => (n : Int)) else none
     | [] => none)
  | '-' :: r =>
    (match r with
     | c :: _ => if c.isDigit then (parseDigitsUS 0 r).map (fun n => -(n : Int)) else none
     | [] => none)
  | c :: r =>
    if c.isDigit then (parseDigitsUS 0 (c :: r)).map (fun n => (n : Int)) else none
  | [] => none

/-- Decimal rendering of a natural number, as Python `str(n)`. -/
def natToStr (n : Nat) : PyStr := Nat.toDigits 10 n

/-- Decimal rendering of an integer, as Python `str(i)`. -/
def intToStr (i : Int) : PyStr :=
  if i < 0 then '-' :: Nat.toDigits 10 i.natAbs else Nat.toDigits 10 i.toNat

/-- Python string comparison: lexicographic by code point. -/
def strLt : PyStr → PyStr → Bool
  | [], [] => false
  | [], _ :: _ => true
  | _ :: _, [] => false
  | a :: s, b :: t =>
    if a.toNat < b.toNat then true
    else if b.toNat < a.toNat then false
    else strLt s t

/-- Insertion step of insertion sort with strict order `lt`. -/
def insertBy (lt : PyStr → PyStr → Bool) (x : PyStr) : List PyStr → List PyStr
  | [] => [x]
  | y :: ys => if lt y x then y :: insertBy lt x ys else x :: y :: ys

/-- Insertion sort with strict order `lt` (ascending). -/
def sortBy (lt : PyStr → PyStr → Bool) : List PyStr → List PyStr
  | [] => []
  | x :: xs => insertBy lt x (sortBy lt xs)

/-- Python `sorted(...)` on a set of strings: the distinct elements in
code-point lexicographic order. -/
def sortedDistinct (xs : List PyStr) : List PyStr := sortBy strLt xs.dedup

/-- Python `",".join(parts)`. -/
def joinComma : List PyStr → PyStr
  | [] => []
  | [l] => l
  | l :: ls => l ++ ',' :: joinComma ls

/-- The numstat field coercion `(field or "0")` of the source: an empty
field is treated as the string zero. -/
def orZero (f : PyStr) : PyStr := if f = [] then ['0'] else f

/-- The lines of the numstat text that contain a tab, as filtered by
`fallback_message`. -/
def tabLines (ns : PyStr) : List PyStr :=
  (pySplitlines ns).filter (fun l => l.contains '	')

/-- Sequence a list of optional values; `none` models the first exception
raised inside the `try` block of `fallback_message`. -/
def seqOpt {α : Type} : List (Option α) → Option (List α)
  | [] => some []
  | none :: _ => none
  | some a :: rest => (seqOpt rest).map (fun l => a :: l)

/-- The file field of one numstat line: `l.split("\t", 2)[2]`; `none` models
the IndexError when the line has exactly one tab. -/
def lineFile (l : PyStr) : Option PyStr := (pySplitLimit '\t' 2 l).get? 2

/-- The added count of one numstat line:
`int((l.split("\t", 2)[0] or "0").replace("-", "0"))`; `none` models the
ValueError. -/
def lineAdd (l : PyStr) : Option Int :=
  pyInt (replace1 '-' ['0'] (orZero ((pySplitLimit '\t' 2 l).headD [])))

/-- The deleted count of one numstat line, from field 1. -/
def lineDel (l : PyStr) : Option Int :=
  ((pySplitLimit '\t' 2 l).get? 1).bind (fun f => pyInt (replace1 '-' ['0'] (orZero f)))

/-- The `files` list of `fallback_message`. -/
def numstatFiles (ns : PyStr) : Option (List PyStr) :=
  seqOpt ((tabLines ns).map lineFile)

/-- The `adds` sum of `fallback_message`. -/
def numstatAdds (ns : PyStr) : Option Int :=
  (seqOpt ((tabLines ns).map lineAdd)).map (fun xs => xs.foldl (fun a b => a + b) 0)

/-- The `dels` sum of `fallback_message`. -/
def numstatDels (ns : PyStr) : Option Int :=
  (seqOpt ((tabLines ns).map lineDel)).map (fun xs => xs.foldl (fun a b => a + b) 0)

/-- The scope string of `fallback_message`:
`sorted({f.split("/",1)[0] for f in files if "/" in f})[:2]`, joined with
commas and parenthesized when non-empty. -/
def scopePart (files : List PyStr) : PyStr :=
  let scopes := (sortedDistinct ((files.filter (fun f => f.contains '/')).map
    (fun f => f.takeWhile (fun c => c ≠ '/')))).take 2
  if scopes = [] then [] else '(' :: joinComma scopes ++ [')']

/-- The `try` body of `fallback_message` on numstat text `ns` (the output of
`git diff --staged --numstat`, which the source reads through `sh` and is
here an input); `none` models an exception reaching the `except` clause. -/
def fallback_core (ns : PyStr) : Option PyStr :=
  match numstatFiles ns, numstatAdds ns, numstatDels ns with
  | some files, some adds, some dels =>
    some (("chore").toList ++ scopePart files ++ (": update ").toList
      ++ natToStr files.length ++ (" files (+").toList ++ intToStr adds
      ++ (" -").toList ++ intToStr dels ++ [')'])
  | _, _, _ => none

/-- The function `fallback_message()` of the source, as a function of the
numstat text it reads from git. -/
def fallback_message (ns : PyStr) : PyStr :=
  (fallback_core ns).getD ("chore: update files").toList

/-- Modelled from the claim's words (C4): one record per changed file,
carrying the added count, deleted count (the non-numeric stat marker counts
as zero) and the path. -/
def lineRec (l : PyStr) : Option (Int × Int × PyStr) :=
  let parts := pySplitLimit '\t' 2 l
  match parts.get? 2, parts.get? 1 with
  | some path, some delf =>
    (match pyInt (replace1 '-' ['0'] (orZero (parts.headD []))),
           pyInt (replace1 '-' ['0'] (orZero delf)) with
     | some a, some d => some (a, d, path)
     | _, _ => none)
  | _, _ => none

/-- Modelled from the claim's words (C4): the records of all changed files. -/
def specRecords (ns : PyStr) : Option (List (Int × Int × PyStr)) :=
  seqOpt ((tabLines ns).map lineRec)

/-- Order used to read the claim's word "shortest": by length, ties broken
lexicographically. -/
def shortLexLt (a b : PyStr) : Bool :=
  if a.length < b.length then true
  else if b.length < a.length then false
  else strLt a b

/-- Modelled from the claim's words (C4): the scope built from up to two
distinct top-level path segments of changed files containing a path
separator, chosen by the given strict order, omitted when none exist. -/
def specScope (lt : PyStr → PyStr → Bool) (paths : List PyStr) : PyStr :=
  let segs := ((paths.filter (fun f => f.contains '/')).map
    (fun f => f.takeWhile (fun c => c ≠ '/'))).dedup
  match (sortBy lt segs).take 2 with
  | [] => []
  | chosen => '(' :: joinComma chosen ++ [')']

/-- Modelled from the claim's words (C4): the full fallback message
`type(scope)?: update N files (+A -D)` with the generic maintenance type,
the scope chosen by the order `lt`, the count of changed files and the
summed added/deleted counts; the literal zero-statistics message stands in
when the numstat does not parse. -/
def fallbackSpec (lt : PyStr → PyStr → Bool) (ns : PyStr) : PyStr :=
  match specRecords ns with
  | some recs =>
    ("chore").toList ++ specScope lt (recs.map (fun r => r.2.2)) ++ (": update ").toList
      ++ natToStr recs.length ++ (" files (+").toList
      ++ intToStr ((recs.map (fun r => r.1)).foldl (fun a b => a + b) 0)
      ++ (" -").toList
      ++ intToStr ((recs.map (fun r => r.2.1)).foldl (fun a b => a + b) 0) ++ [')']
  | none => ("chore: update files").toList

/-- Attempt 1 of the orchestrator `main`: the provider output is stripped by
`gen_once` and validated with an empty fallback; the minimal-context retry
(attempt 2) is entered exactly when this value is empty. -/
def attempt1Message (out : PyStr) : PyStr := validate_or_fallback (pyStrip out) []

/-- UTF-8 encoding of one unicode scalar value. -/
def utf8Bytes (c : Char) : List Nat :=
  let n := c.toNat
  if n < 128 then [n]
  else if n < 2048 then [192 + n / 64, 128 + n % 64]
  else if n < 65536 then [224 + n / 4096, 128 + (n / 64) % 64, 128 + n % 64]
  else [240 + n / 262144, 128 + (n / 4096) % 64, 128 + (n / 64) % 64, 128 + n % 64]

/-- Python `text.encode("utf-8")` as a byte list. -/
def utf8Encode : PyStr → List Nat
  | [] => []
  | c :: s => utf8Bytes c ++ utf8Encode s

/-- UTF-8 continuation byte. -/
def isCont (b : Nat) : Bool := 128 ≤ b ∧ b < 192

/-- Constraint on the second byte after a three-byte lead (rules out overlong
forms and surrogates, as Python's decoder does). -/
def cont3ok (b b2 : Nat) : Bool :=
  if b = 224 then 160 ≤ b2 ∧ b2 < 192
  else if b = 237 then 128 ≤ b2 ∧ b2 < 160
  else isCont b2

/-- Constraint on the second byte after a four-byte lead. -/
def cont4ok (b b2 : Nat) : Bool :=
  if b = 240 then 144 ≤ b2 ∧ b2 < 192
  else if b = 244 then 128 ≤ b2 ∧ b2 < 144
  else isCont b2

/-- Fuel-indexed worker for the UTF-8 decoder; the fuel is an upper bound on
the number of bytes and only makes the recursion structural. -/
def decodeAux : Nat → List Nat → PyStr
  | _, [] => []
  | 0, _ :: _ => []
  | f + 1, b :: rest =>
    if b < 128 then Char.ofNat b :: decodeAux f rest
    else if 194 ≤ b ∧ b < 224 then
      match rest with
      | b2 :: r2 =>
        if isCont b2 then Char.ofNat ((b - 192) * 64 + (b2 - 128)) :: decodeAux f r2
        else decodeAux f rest
      | [] => []
    else if 224 ≤ b ∧ b < 240 then
      match rest with
      | b2 :: b3 :: r3 =>
        if cont3ok b b2 ∧ isCont b3 then
          Char.ofNat ((b - 224) * 4096 + (b2 - 128) * 64 + (b3 - 128)) :: decodeAux f r3
        else decodeAux f rest
      | _ => decodeAux f rest
    else if 240 ≤ b ∧ b < 245 then
      match rest with
      | b2 :: b3 :: b4 :: r4 =>
        if cont4ok b b2 ∧ isCont b3 ∧ isCont b4 then
          Char.ofNat ((b - 240) * 262144 + (b2 - 128) * 4096 + (b3 - 128) * 64 + (b4 - 128))
            :: decodeAux f r4
        else decodeAux f rest
      | _ => decodeAux f rest
    else decodeAux f rest

/-- Python `bytes.decode("utf-8", errors="ignore")`: well-formed sequences
decode to their scalar value, bytes that cannot start or complete a valid
sequence are skipped. -/
def utf8DecodeIgnore (bs : List Nat) : PyStr := decodeAux bs.length bs

/-- Opening sentinel of the opaque diff block. -/
def wrapHead : PyStr := ("<DIFF>\n<![CDATA[\n").toList

/-- Closing sentinel of the opaque diff block. -/
def wrapTail : PyStr := ("\n]]>\n</DIFF>").toList

/-- Truncation marker appended after a byte clamp. -/
def truncMarker : PyStr := ("\n… [truncated]").toList

/-- The wrapper of `sanitize_blob`. -/
def wrapDiff (text : PyStr) : PyStr := wrapHead ++ text ++ wrapTail

/-- The backtick character. -/
def bq : Char := ("x`").toList.getLastD ' '

/-- Replacement for a code-fence of backticks (three U+02BC). -/
def fenceBack : PyStr := ("ʼʼʼ").toList

/-- Replacement for a code-fence of tildes (three U+223C). -/
def fenceTilde : PyStr := ("∼∼∼").toList

/-- The replacement pipeline of `sanitize_blob` before the clamp: strip NULs,
normalize line endings, normalize unicode (the parameter `nfc`), and replace
code-fence delimiters by lookalikes. -/
def sanitizeBody (nfc : PyStr → PyStr) (text : PyStr) : PyStr :=
  replace3 '~' '~' '~' fenceTilde (replace3 bq bq bq fenceBack
    (nfc (replace1 '\u000d' ['\n'] (replace2 '\u000d' '\n' ['\n']
      (replace1 '\u0000' [] text)))))

/-- The byte clamp of `sanitize_blob`: encode, truncate to the budget when
over it (decoding ignores a trailing partial sequence, so the cut is at a
UTF-8-safe boundary) and append the truncation marker. -/
def clampBytes (t4 : PyStr) (byte_budget : Nat) : PyStr :=
  if byte_budget < (utf8Encode t4).length
  then utf8DecodeIgnore ((utf8Encode t4).take byte_budget) ++ truncMarker
  else utf8DecodeIgnore (utf8Encode t4)

/-- The function `sanitize_blob(text, byte_budget)` of the source.  The call
`unicodedata.normalize("NFC", ...)` is the parameter `nfc`; every other step
is modelled directly: strip NULs, normalize line endings, replace code-fence
delimiters by lookalikes, clamp to the byte budget at a UTF-8-safe boundary
(appending the truncation marker), and wrap in the opaque block.  Empty
input yields empty output. -/
def sanitize_blob (nfc : PyStr → PyStr) (text : PyStr) (byte_budget : Nat) : PyStr :=
  if text = [] then []
  else wrapDiff (clampBytes (sanitizeBody nfc text) byte_budget)

/-- Byte overhead of the wrapper sentinels and the truncation marker. -/
def sanitizeOverheadBytes : Nat :=
  (utf8Encode wrapHead).length + (utf8Encode wrapTail).length
    + (utf8Encode truncMarker).length

/-- JSON values as produced by Python `json.loads`. -/
inductive PyJson where
  | jnull
  | jbool (b : Bool)
  | jnum (n : Int)
  | jstr (s : PyStr)
  | jarr (elems : List PyJson)
  | jobj (fields : List (PyStr × PyJson))

/-- Python exceptions that the provider bodies can raise. -/
inductive PyExn where
  | attributeError
  | indexError
  | typeError
  | keyError
deriving DecidableEq

/-- Result of running Python code that may raise. -/
abbrev PyRes (α : Type) := Except PyExn α

/-- Python truthiness of a JSON value. -/
def pyTruthy : PyJson → Bool
  | .jnull => false
  | .jbool b => b
  | .jnum n => decide (n ≠ 0)
  | .jstr [] => false
  | .jstr (_ :: _) => true
  | .jarr [] => false
  | .jarr (_ :: _) => true
  | .jobj [] => false
  | .jobj (_ :: _) => true

/-- First binding of a key in an object. -/
def lookupField : List (PyStr × PyJson) → PyStr → Option PyJson
  | [], _ => none
  | (k2, v) :: rest, k => if k2 = k then some v else lookupField rest k

/-- Python `obj.get(key, default)`: AttributeError unless `obj` is a dict. -/
def dictGet (j : PyJson) (k : PyStr) (default : PyJson) : PyRes PyJson :=
  match j with
  | .jobj kvs => .ok ((lookupField kvs k).getD default)
  | _ => .error .attributeError

/-- Python `x[0]`: first element of a list or string, IndexError when empty,
KeyError on a dict without that key, TypeError otherwise. -/
def index0 (j : PyJson) : PyRes PyJson :=
  match j with
  | .jarr (x :: _) => .ok x
  | .jarr [] => .error .indexError
  | .jstr (c :: _) => .ok (.jstr [c])
  | .jstr [] => .error .indexError
  | .jobj _ => .error .keyError
  | _ => .error .typeError

/-- Python `(x or "")`. -/
def pyOrEmptyStr (j : PyJson) : PyJson := if pyTruthy j then j else .jstr []

/-- Python attribute access `.strip()` on a value that must be a string. -/
def asStr (j : PyJson) : PyRes PyStr :=
  match j with
  | .jstr s => .ok s
  | _ => .error .attributeError

/-- Python `key in obj`. -/
def inObj (k : PyStr) (j : PyJson) : PyRes Bool :=
  match j with
  | .jobj kvs => .ok (kvs.any (fun kv => kv.1 = k))
  | .jarr xs => .ok (xs.any (fun x => match x with | .jstr s => decide (s = k) | _ => false))
  | .jstr s => .ok (hasSub k s)
  | _ => .error .typeError

/-- Outcome of the HTTP round trip performed by `_post_json`: either the
response body was read (with the result of strict JSON parsing or of the
best-effort extraction of the last top-level object, `none` when both fail),
or an HTTPError carried a body, or the request itself failed. -/
inductive PostOutcome where
  | success (parsed : Option PyJson) (raw : PyStr)
  | httpError (raw : PyStr)
  | requestFailed (msg : PyStr)

/-- The function `_post_json` of the source: returns the parsed object (or
`None`) together with the raw text; never raises. -/
def postJson : PostOutcome → Option PyJson × PyStr
  | .success p raw => (p, raw)
  | .httpError raw => (none, raw)
  | .requestFailed m => (none, ("<request failed: ").toList ++ m ++ ['>'])

/-- Key strings used by the providers. -/
def kResponse : PyStr := ("response").toList

def kChoices : PyStr := ("choices").toList

def kMessage : PyStr := ("message").toList

def kContent : PyStr := ("content").toList

def kError : PyStr := ("error").toList

def kCandidates : PyStr := ("candidates").toList

def kParts : PyStr := ("parts").toList

def kText : PyStr := ("text").toList

/-- The method `Ollama.generate` of the source, from the point where
`_post_json` has returned: `(obj.get("response") or "").strip()`; an
exception value models a raise escaping `generate`. -/
def ollamaGenerate (o : PostOutcome) : PyRes PyStr :=
  match (postJson o).1 with
  | none => .ok []
  | some obj => do
    let r ← dictGet obj kResponse .jnull
    let s ← asStr (pyOrEmptyStr r)
    return pyStrip s

/-- The method `OpenAI.generate` of the source: empty without a key,
otherwise `obj.get("choices", [{}])[0].get("message", {}).get("content", "")`
then `(ch or "").strip()`. -/
def openaiGenerate (key : Option PyStr) (o : PostOutcome) : PyRes PyStr :=
  if key = none ∨ key = some [] then .ok []
  else
    match (postJson o).1 with
    | none => .ok []
    | some obj => do
      let cs ← dictGet obj kChoices (.jarr [.jobj []])
      let c0 ← index0 cs
      let m ← dictGet c0 kMessage (.jobj [])
      let ch ← dictGet m kContent (.jstr [])
      let s ← asStr (pyOrEmptyStr ch)
      return pyStrip s

/-- One step of `"".join(p.get("text", "") for p in parts)`: each part is
asked for its text field, and joining raises TypeError on a non-string. -/
def geminiParts : List PyJson → PyRes PyStr
  | [] => .ok []
  | p :: rest => do
    let t ← dictGet p kText (.jstr [])
    let s ← (match t with
             | .jstr s => Except.ok s
             | _ => Except.error PyExn.typeError)
    let r ← geminiParts rest
    return s ++ r

/-- The method `Gemini.generate` of the source: empty without a key; an
`error` member in the reply yields empty; otherwise the first candidate's
content parts are joined and stripped. -/
def geminiGenerate (key : Option PyStr) (o : PostOutcome) : PyRes PyStr :=
  if key = none ∨ key = some [] then .ok []
  else
    match (postJson o).1 with
    | none => .ok []
    | some obj => do
      let he ← inObj kError obj
      if he then return []
      else do
        let c ← dictGet obj kCandidates (.jarr [])
        let parts ←
          (if pyTruthy c then do
            let c0 ← index0 c
            let content ← dictGet c0 kContent (.jobj [])
            dictGet content kParts (.jarr [])
          else pure (.jarr []))
        match parts with
        | .jarr xs => do
          let s ← geminiParts xs
          return pyStrip s
        | .jstr cs => do
          let s ← geminiParts (cs.map (fun ch => .jstr [ch]))
          return pyStrip s
        | .jobj kvs => do
          let s ← geminiParts (kvs.map (fun kv => .jstr kv.1))
          return pyStrip s
        | _ => .error .typeError

/-! Basic facts about the string primitives. -/

theorem pyIsSpace_false_of_alpha {c : Char} (h1 : 65 ≤ c.toNat) (h2 : c.toNat ≤ 122) :
    pyIsSpace c = false := by
  simp only [pyIsSpace, decide_eq_false_iff_not]
  intro hmem
  fin_cases hmem <;> first
    | exact absurd h1 (by decide)
    | exact absurd h2 (by decide)

theorem pyIsSpace_false_of_toLower_letter {c l : Char} (h : Char.toLower c = l)
    (h1 : 97 ≤ l.toNat) (h2 : l.toNat ≤ 122) : pyIsSpace c = false := by
  unfold Char.toLower at h
  by_cases hc : c.toNat ≥ 65 ∧ c.toNat ≤ 90
  · exact pyIsSpace_false_of_alpha hc.1 (le_trans hc.2 (by norm_num))
  · rw [if_neg hc] at h
    subst h
    exact pyIsSpace_false_of_alpha (le_trans (by norm_num) h1) h2

theorem splitlinesGo_headD (t : PyStr) : ∀ cur : PyStr,
    (splitlinesGo cur t).headD [] = cur.reverse ++ t.takeWhile (fun c => !isLineBoundary c) := by
  induction t with
  | nil => intro cur; simp [splitlinesGo]
  | cons c rest ih =>
    intro cur
    by_cases hc : isLineBoundary c
    · simp [splitlinesGo, hc, List.takeWhile_cons_of_neg]
    · simp only [splitlinesGo, if_neg hc, ih (c :: cur)]
      rw [List.takeWhile_cons_of_pos (by simp [hc])]
      simp

theorem crlf_takeWhile (s : PyStr) :
    (crlfToLf s).takeWhile (fun c => !isLineBoundary c)
      = s.takeWhile (fun c => !isLineBoundary c) := by
  induction s using crlfToLf.induct with
  | case1 r _ =>
    rw [crlfToLf]
    rw [List.takeWhile_cons_of_neg (by decide), List.takeWhile_cons_of_neg (by decide)]
  | case2 c r hne ih =>
    rw [crlfToLf.eq_2 c r hne]
    by_cases hc : isLineBoundary c
    · rw [List.takeWhile_cons_of_neg (by simp [hc]), List.takeWhile_cons_of_neg (by simp [hc])]
    · rw [List.takeWhile_cons_of_pos (by simp [hc]), List.takeWhile_cons_of_pos (by simp [hc]), ih]
  | case3 => rfl

theorem firstSplitline_eq (s : PyStr) :
    firstSplitline s = s.takeWhile (fun c => !isLineBoundary c) := by
  by_cases h : s = []
  · subst h; rfl
  · unfold firstSplitline pySplitlines
    rw [if_neg h, splitlinesGo_headD, crlf_takeWhile]
    simp

theorem mem_firstSplitline_not_lineBoundary {c : Char} {s : PyStr}
    (h : c ∈ firstSplitline s) : isLineBoundary c = false := by
  rw [firstSplitline_eq] at h
  simpa using List.mem_takeWhile_imp h

theorem mem_pyStrip {c : Char} {s : PyStr} (h : c ∈ pyStrip s) : c ∈ s := by
  unfold pyStrip at h
  rw [List.mem_reverse] at h
  have h2 := ((List.dropWhile_sublist _).mem h)
  rw [List.mem_reverse] at h2
  exact (List.dropWhile_sublist _).mem h2

theorem pyStrip_eq_nil_of_all_space {s : PyStr} (h : ∀ c ∈ s, pyIsSpace c = true) :
    pyStrip s = [] := by
  unfold pyStrip
  have h1 : s.dropWhile pyIsSpace = [] := List.dropWhile_eq_nil_iff.mpr h
  simp [h1]

theorem pyStrip_ne_nil {s : PyStr} {c : Char} (hc : c ∈ s) (hsp : pyIsSpace c = false) :
    pyStrip s ≠ [] := by
  unfold pyStrip
  intro hcon
  rw [List.reverse_eq_nil_iff, List.dropWhile_eq_nil_iff] at hcon
  have hd : s.dropWhile pyIsSpace ≠ [] := by
    intro hnil
    rw [List.dropWhile_eq_nil_iff] at hnil
    rw [hnil c hc] at hsp
    exact absurd hsp (by simp)
  have hhead := List.head_dropWhile_not pyIsSpace s hd
  have hmem : (s.dropWhile pyIsSpace).head hd ∈ (s.dropWhile pyIsSpace).reverse := by
    rw [List.mem_reverse]; exact List.head_mem hd
  rw [hcon _ hmem] at hhead
  exact absurd hhead (by simp)

theorem pyStrip_eq_nil_iff {s : PyStr} : pyStrip s = [] ↔ ∀ c ∈ s, pyIsSpace c = true := by
  constructor
  · intro h c hc
    by_contra hns
    exact pyStrip_ne_nil hc (by simpa using hns) h
  · exact pyStrip_eq_nil_of_all_space

theorem head_dropWhile_false {α : Type} {p : α → Bool} {l : List α} {h : α} {t : List α}
    (hX : l.dropWhile p = h :: t) : p h = false := by
  induction l with
  | nil => simp at hX
  | cons a l' ih =>
    rw [List.dropWhile_cons] at hX
    by_cases hp : p a
    · rw [if_pos hp] at hX; exact ih hX
    · rw [if_neg hp] at hX
      cases hX
      simpa using hp

theorem dropWhile_dropWhile (p : Char → Bool) (l : PyStr) :
    (l.dropWhile p).dropWhile p = l.dropWhile p := by
  cases hX : l.dropWhile p with
  | nil => simp
  | cons h t =>
    exact List.dropWhile_cons_of_neg (by simp [head_dropWhile_false hX])

theorem pyStrip_idem (s : PyStr) : pyStrip (pyStrip s) = pyStrip s := by
  unfold pyStrip
  set x := s.dropWhile pyIsSpace with hx
  set r := (x.reverse.dropWhile pyIsSpace).reverse with hr
  have hrx : r <+: x := by
    rw [hr]
    obtain ⟨t, ht⟩ := List.dropWhile_suffix (l := x.reverse) pyIsSpace
    exact ⟨t.reverse, by rw [← List.reverse_append, ht, List.reverse_reverse]⟩
  cases hre : r with
  | nil => simp [hre]
  | cons a r' =>
    have hdrop : r.dropWhile pyIsSpace = r := by
      rcases hrx with ⟨t, ht⟩
      rcases hxe : x with _ | ⟨b, x'⟩
      · rw [hxe] at ht; simp at ht
        rw [hre] at ht
        exact absurd ht.1 (by simp)
      · have hbhead : pyIsSpace b = false := by
          have hds : s.dropWhile pyIsSpace = b :: x' := by rw [← hx, hxe]
          exact head_dropWhile_false hds
        have hab : a = b := by
          rw [hre, hxe] at ht
          cases t with
          | nil => simp at ht; exact ht.1
          | cons u us => simp at ht; exact ht.1
        rw [hre]
        exact List.dropWhile_cons_of_neg (by rw [hab]; simp [hbhead])
    rw [← hre, hdrop, hr]
    rw [List.reverse_reverse, dropWhile_dropWhile]

/-! Facts about the Conventional-Commit subject matcher. -/

theorem isPrefixOf_total : ∀ {s p q : PyStr}, p.isPrefixOf s = true → q.isPrefixOf s = true →
    p.isPrefixOf q = true ∨ q.isPrefixOf p = true := by
  intro s
  induction s with
  | nil =>
    intro p q hp hq
    cases p <;> cases q <;> simp_all [List.isPrefixOf]
  | cons a s' ih =>
    intro p q hp hq
    cases p with
    | nil => left; simp [List.isPrefixOf]
    | cons x p' =>
      cases q with
      | nil => right; simp [List.isPrefixOf]
      | cons y q' =>
        simp only [List.isPrefixOf, Bool.and_eq_true, beq_iff_eq] at hp hq ⊢
        rcases hp with ⟨hx, hp'⟩
        rcases hq with ⟨hy, hq'⟩
        subst hx; subst hy
        rcases ih hp' hq' with h | h
        · left; exact ⟨rfl, h⟩
        · right; exact ⟨rfl, h⟩

theorem ccSubjectMatch_elim {s : PyStr} (h : ccSubjectMatch s = true) :
    ∃ tok ∈ CC_TYPES, tok.isPrefixOf (lowerStr s) = true := by
  unfold ccSubjectMatch at h
  rw [List.any_eq_true] at h
  obtain ⟨tok, htok, hcond⟩ := h
  rw [Bool.and_eq_true] at hcond
  exact ⟨tok, htok, hcond.1⟩

theorem cc_types_err_incomparable :
    (CC_TYPES.all fun tok => ERROR_PREFIXES.all fun p =>
      !(tok.isPrefixOf p) && !(p.isPrefixOf tok)) = true := by decide

/-- A first line matching the commit-subject regex cannot begin with one of the
error-signature prefixes: the nine type tokens and the seven error prefixes are
pairwise incomparable under the prefix order. -/
theorem cc_not_error {first : PyStr} (h : ccSubjectMatch first = true) :
    (ERROR_PREFIXES.any fun p => p.isPrefixOf (lowerStr first)) = false := by
  by_contra hcon
  rw [Bool.not_eq_false, List.any_eq_true] at hcon
  obtain ⟨p, hpmem, hpref⟩ := hcon
  obtain ⟨tok, htokmem, htokpref⟩ := ccSubjectMatch_elim h
  have hcomp := isPrefixOf_total htokpref hpref
  have hinc := cc_types_err_incomparable
  rw [List.all_eq_true] at hinc
  have := hinc tok htokmem
  rw [List.all_eq_true] at this
  have := this p hpmem
  rw [Bool.and_eq_true, Bool.not_eq_true', Bool.not_eq_true'] at this
  rcases hcomp with h1 | h1
  · rw [this.1] at h1; exact absurd h1 (by simp)
  · rw [this.2] at h1; exact absurd h1 (by simp)

theorem cc_head {s : PyStr} (h : ccSubjectMatch s = true) :
    ∃ c s', s = c :: s' ∧ pyIsSpace c = false := by
  obtain ⟨tok, htokmem, hpref⟩ := ccSubjectMatch_elim h
  fin_cases htokmem <;>
  · cases s with
    | nil => simp [lowerStr, List.isPrefixOf] at hpref
    | cons c s' =>
      refine ⟨c, s', rfl, ?_⟩
      simp only [lowerStr, List.map_cons, List.isPrefixOf, Bool.and_eq_true, beq_iff_eq] at hpref
      exact pyIsSpace_false_of_toLower_letter hpref.1.symm (by decide) (by decide)

theorem joinNL_cons_cons (l m : PyStr) (ls : List PyStr) :
    joinNL (l :: m :: ls) = l ++ '\n' :: joinNL (m :: ls) := by
  rfl

theorem acceptClamp_ne_nil {msg : PyStr}
    (h : ccSubjectMatch (pyStrip (firstSplitline msg)) = true) : acceptClamp msg ≠ [] := by
  obtain ⟨c, f', hfirst, hcsp⟩ := cc_head h
  simp only [acceptClamp]
  rw [show (6 : Nat) = 5 + 1 from rfl, List.take_succ_cons]
  cases hbody : (((pySplitlines msg).drop 1).filter (fun l => decide (pyStrip l ≠ []))).take 5 with
  | nil =>
    show pyStrip (joinNL [pyStrip (firstSplitline msg)]) ≠ []
    show pyStrip (pyStrip (firstSplitline msg)) ≠ []
    rw [pyStrip_idem, hfirst]
    simp
  | cons m ms =>
    rw [joinNL_cons_cons]
    refine pyStrip_ne_nil ?_ hcsp
    rw [hfirst]
    simp

/-! Facts about the repair branch and the accept branch. -/

theorem mem_repairSubject {c : Char} {first : PyStr} (h : c ∈ repairSubject first) :
    c ∈ first ∨ c = ':' ∨ c = ' ' := by
  unfold repairSubject at h
  simp only [List.mem_append, List.mem_cons] at h
  rcases h with h | h | h | h
  · exact Or.inl (((List.takeWhile_sublist _).mem (List.mem_of_mem_take h)))
  · exact Or.inr (Or.inl h)
  · exact Or.inr (Or.inr h)
  · exact Or.inl ((List.drop_sublist _ _).mem (mem_pyStrip (List.mem_of_mem_take h)))

theorem repairSubject_ne_nil (first : PyStr) : repairSubject first ≠ [] := by
  unfold repairSubject
  simp

theorem repairSubject_length_le (first : PyStr) : (repairSubject first).length ≤ 72 := by
  unfold repairSubject
  simp only [List.length_append, List.length_cons]
  have h1 : ((first.takeWhile (fun c => c ≠ ':')).take 50).length ≤ 50 :=
    List.length_take_le _ _
  have h1b : ((first.takeWhile (fun c => c ≠ ':')).take 50).length
      ≤ (first.takeWhile (fun c => c ≠ ':')).length :=
    (List.take_sublist _ _).length_le
  have h2 : ((pyStrip (first.drop ((first.takeWhile (fun c => c ≠ ':')).length + 1))).take
      (72 - (first.takeWhile (fun c => c ≠ ':')).length - 2)).length
      ≤ 72 - (first.takeWhile (fun c => c ≠ ':')).length - 2 :=
    List.length_take_le _ _
  omega

theorem mem_joinNL_head {x : Char} {l : PyStr} (ls : List PyStr) (h : x ∈ l) :
    x ∈ joinNL (l :: ls) := by
  cases ls with
  | nil => exact h
  | cons m ms => rw [joinNL_cons_cons]; exact List.mem_append.mpr (Or.inl h)

theorem pyStrip_structured (c : Char) (f' R : PyStr) (hc : pyIsSpace c = false)
    {x : Char} (hx : x ∈ R) (hxs : pyIsSpace x = false) :
    pyStrip ((c :: f') ++ '\n' :: R)
      = (c :: f') ++ '\n' :: (R.reverse.dropWhile pyIsSpace).reverse := by
  unfold pyStrip
  rw [List.cons_append, List.dropWhile_cons_of_neg (by simp [hc])]
  rw [← List.cons_append, List.reverse_append, List.reverse_cons]
  rw [List.append_assoc, List.singleton_append]
  have hne : R.reverse.dropWhile pyIsSpace ≠ [] := by
    intro hnil
    rw [List.dropWhile_eq_nil_iff] at hnil
    have := hnil x (List.mem_reverse.mpr hx)
    rw [this] at hxs; exact absurd hxs (by simp)
  rw [List.dropWhile_append, if_neg (by simpa using hne)]
  rw [List.reverse_append, List.reverse_cons, List.reverse_reverse]
  rw [List.append_assoc, List.singleton_append]

theorem firstSplitline_append_newline (L Y : PyStr)
    (hL : ∀ x ∈ L, isLineBoundary x = false) :
    firstSplitline (L ++ '\n' :: Y) = L := by
  rw [firstSplitline_eq]
  have hself : L.takeWhile (fun c => !isLineBoundary c) = L :=
    List.takeWhile_eq_self_iff.mpr (by intro x hx; simp [hL x hx])
  rw [List.takeWhile_append, if_pos (by rw [hself])]
  rw [List.takeWhile_cons_of_neg (by decide)]
  simp

theorem first_boundary_free {msg : PyStr} :
    ∀ x ∈ pyStrip (firstSplitline msg), isLineBoundary x = false := by
  intro x hx
  exact mem_firstSplitline_not_lineBoundary (mem_pyStrip hx)

theorem firstSplitline_acceptClamp {msg : PyStr}
    (h : ccSubjectMatch (pyStrip (firstSplitline msg)) = true) :
    firstSplitline (acceptClamp msg) = pyStrip (firstSplitline msg) := by
  obtain ⟨c, f', hfirst, hcsp⟩ := cc_head h
  simp only [acceptClamp]
  rw [show (6 : Nat) = 5 + 1 from rfl, List.take_succ_cons]
  cases hbody : (((pySplitlines msg).drop 1).filter (fun l => decide (pyStrip l ≠ []))).take 5 with
  | nil =>
    show firstSplitline (pyStrip (joinNL [pyStrip (firstSplitline msg)]))
        = pyStrip (firstSplitline msg)
    show firstSplitline (pyStrip (pyStrip (firstSplitline msg))) = pyStrip (firstSplitline msg)
    rw [pyStrip_idem, firstSplitline_eq]
    exact List.takeWhile_eq_self_iff.mpr
      (by intro x hx; simp [first_boundary_free x hx])
  | cons m ms =>
    rw [joinNL_cons_cons]
    have hm : m ∈ ((pySplitlines msg).drop 1).filter (fun l => decide (pyStrip l ≠ [])) :=
      List.mem_of_mem_take (by rw [hbody]; exact List.mem_cons_self m ms)
    have hmne : pyStrip m ≠ [] := by
      have := (List.mem_filter.mp hm).2
      simpa using this
    obtain ⟨x, hxm, hxs⟩ : ∃ x ∈ m, pyIsSpace x = false := by
      by_contra hcon
      push_neg at hcon
      exact hmne (pyStrip_eq_nil_of_all_space
        (by intro y hy; have := hcon y hy; simpa using this))
    have hxR : x ∈ joinNL (m :: ms) := mem_joinNL_head ms hxm
    rw [hfirst, pyStrip_structured c f' _ hcsp hxR hxs]
    refine firstSplitline_append_newline _ _ ?_
    intro y hy
    rw [← hfirst] at hy
    exact first_boundary_free y hy

/-! Branch equations of the validator. -/

theorem validate_nil (fb : PyStr) : validate_or_fallback [] fb = fb := rfl

theorem validate_of_error {msg : PyStr} (fb : PyStr) (hne : msg ≠ [])
    (herr : (ERROR_PREFIXES.any
      fun p => p.isPrefixOf (lowerStr (pyStrip (firstSplitline msg)))) = true) :
    validate_or_fallback msg fb = fb := by
  simp [validate_or_fallback, hne, herr]

theorem validate_of_accept {msg : PyStr} (fb : PyStr) (hne : msg ≠ [])
    (hcc : ccSubjectMatch (pyStrip (firstSplitline msg)) = true) :
    validate_or_fallback msg fb = acceptClamp msg := by
  have herr := cc_not_error hcc
  simp [validate_or_fallback, hne, herr, hcc]

theorem validate_of_repair {msg : PyStr} (fb : PyStr) (hne : msg ≠ [])
    (herr : (ERROR_PREFIXES.any
      fun p => p.isPrefixOf (lowerStr (pyStrip (firstSplitline msg)))) = false)
    (hcc : ccSubjectMatch (pyStrip (firstSplitline msg)) = false)
    (hcol : (pyStrip (firstSplitline msg)).contains ':' = true) :
    validate_or_fallback msg fb = repairSubject (pyStrip (firstSplitline msg)) := by
  have hm : ':' ∈ pyStrip (firstSplitline msg) := by simpa using hcol
  simp [validate_or_fallback, hne, herr, hcc, hm]

theorem validate_of_no_colon {msg : PyStr} (fb : PyStr) (hne : msg ≠ [])
    (herr : (ERROR_PREFIXES.any
      fun p => p.isPrefixOf (lowerStr (pyStrip (firstSplitline msg)))) = false)
    (hcc : ccSubjectMatch (pyStrip (firstSplitline msg)) = false)
    (hcol : (pyStrip (firstSplitline msg)).contains ':' = false) :
    validate_or_fallback msg fb = fb := by
  have hm : ':' ∉ pyStrip (firstSplitline msg) := by simpa using hcol
  simp [validate_or_fallback, hne, herr, hcc, hm]

theorem validate_ne_nil {fb : PyStr} (msg : PyStr) (hfb : fb ≠ []) :
    validate_or_fallback msg fb ≠ [] := by
  by_cases hne : msg = []
  · subst hne; rw [validate_nil]; exact hfb
  by_cases herr : (ERROR_PREFIXES.any
      fun p => p.isPrefixOf (lowerStr (pyStrip (firstSplitline msg)))) = true
  · rw [validate_of_error fb hne herr]; exact hfb
  rw [Bool.not_eq_true] at herr
  by_cases hcc : ccSubjectMatch (pyStrip (firstSplitline msg)) = true
  · rw [validate_of_accept fb hne hcc]; exact acceptClamp_ne_nil hcc
  rw [Bool.not_eq_true] at hcc
  by_cases hcol : (pyStrip (firstSplitline msg)).contains ':' = true
  · rw [validate_of_repair fb hne herr hcc hcol]; exact repairSubject_ne_nil _
  rw [Bool.not_eq_true] at hcol
  rw [validate_of_no_colon fb hne herr hcc hcol]; exact hfb

/-! The claims about the Validator/Repairer. -/

/-- Claim C10: a non-empty candidate whose first physical line is empty or
whitespace-only is replaced by the fallback; only the first line is ever
examined, so a valid subject on a later line does not help. -/
theorem claim_C10 (msg fb : PyStr) (hne : msg ≠ [])
    (hws : pyStrip (firstSplitline msg) = []) :
    validate_or_fallback msg fb = fb := by
  have h1 : (ERROR_PREFIXES.any fun p => p.isPrefixOf (lowerStr ([] : PyStr))) = false := by
    decide
  have h2 : ccSubjectMatch ([] : PyStr) = false := by decide
  have h3 : ([] : PyStr).contains ':' = false := by decide
  rw [validate_of_no_colon fb hne (by rw [hws]; exact h1) (by rw [hws]; exact h2)
    (by rw [hws]; exact h3)]

/-- Witness for C10: a candidate starting with a newline whose second line is
a valid Conventional Commit subject is still replaced by the fallback. -/
theorem claim_C10_witness :
    validate_or_fallback (("\nfeat: ok").toList) (("chore: update files").toList)
        = ("chore: update files").toList
      ∧ ccSubjectMatch (("feat: ok").toList) = true :=
  ⟨claim_C10 _ _ (by decide) (by decide), by decide⟩

/-- Claim C9: when the first line fails the subject pattern but contains a
colon, the repair branch returns exactly the single repaired subject line and
discards the candidate's entire body (the output contains no newline and does
not depend on the body or the fallback). -/
theorem claim_C9 (msg fb : PyStr) (hne : msg ≠ [])
    (herr : (ERROR_PREFIXES.any
      fun p => p.isPrefixOf (lowerStr (pyStrip (firstSplitline msg)))) = false)
    (hcc : ccSubjectMatch (pyStrip (firstSplitline msg)) = false)
    (hcol : (pyStrip (firstSplitline msg)).contains ':' = true) :
    validate_or_fallback msg fb = repairSubject (pyStrip (firstSplitline msg))
      ∧ '\n' ∉ repairSubject (pyStrip (firstSplitline msg)) := by
  refine ⟨validate_of_repair fb hne herr hcc hcol, ?_⟩
  intro hmem
  rcases mem_repairSubject hmem with h | h | h
  · have := mem_firstSplitline_not_lineBoundary (mem_pyStrip h)
    exact absurd this (by decide)
  · exact absurd h (by decide)
  · exact absurd h (by decide)

/-- Witness for C9: a two-line candidate with an invalid subject containing a
colon is repaired to the single first line; the body is dropped. -/
theorem claim_C9_witness :
    validate_or_fallback (("oops: fixed the thing\n- extra body").toList) (("fb").toList)
      = ("oops: fixed the thing").toList := by
  have h := claim_C9 (("oops: fixed the thing\n- extra body").toList) (("fb").toList)
    (by decide) (by decide) (by decide) (by decide)
  exact h.1.trans (by decide)

/-- Claim C8: when attempt 1's provider output is non-empty and its
(normalized) first line is not error-prefixed and contains a colon, the
validator call with the empty fallback returns a non-empty message, so the
orchestrator never enters the minimal-context retry. -/
theorem claim_C8 (out : PyStr) (hne : out ≠ [])
    (herr : (ERROR_PREFIXES.any
      fun p => p.isPrefixOf (lowerStr (pyStrip (firstSplitline (pyStrip out))))) = false)
    (hcol : (pyStrip (firstSplitline (pyStrip out))).contains ':' = true) :
    attempt1Message out ≠ [] := by
  have hmsgne : pyStrip out ≠ [] := by
    intro h
    rw [h] at hcol
    exact absurd hcol (by decide)
  unfold attempt1Message
  by_cases hcc : ccSubjectMatch (pyStrip (firstSplitline (pyStrip out))) = true
  · rw [validate_of_accept [] hmsgne hcc]
    exact acceptClamp_ne_nil hcc
  · rw [Bool.not_eq_true] at hcc
    rw [validate_of_repair [] hmsgne herr hcc hcol]
    exact repairSubject_ne_nil _

/-- Witness for C8: a colon-bearing output that fails the subject pattern is
repaired on attempt 1 rather than triggering the retry. -/
theorem claim_C8_witness : attempt1Message (("oops: fixed the thing").toList) ≠ [] :=
  claim_C8 (("oops: fixed the thing").toList) (by decide) (by decide) (by decide)

/-- Counterexample to C5 as stated: the candidate consists of one line that
already matches the Conventional Commit subject grammar (a trailing space is
part of the 1-72 character summary), yet the validator returns it altered
(the stripped first line), though no clamping to six lines is involved. -/
theorem claim_C5_counterexample :
    ccSubjectMatch (("feat: x ").toList) = true
      ∧ pySplitlines (("feat: x ").toList) = [("feat: x ").toList]
      ∧ validate_or_fallback (("feat: x ").toList) [] ≠ ("feat: x ").toList := by
  refine ⟨by decide, by decide, by decide⟩

/-- Claim C5, amended: a candidate whose whitespace-stripped first line
matches the subject grammar passes through the validator with exactly the
accept-branch clamp applied: the first line is stripped, blank body lines
are dropped, at most five body lines are kept, and surrounding whitespace of
the joined result is stripped; nothing else changes. -/
theorem claim_C5_amended (msg fb : PyStr) (hne : msg ≠ [])
    (hcc : ccSubjectMatch (pyStrip (firstSplitline msg)) = true) :
    validate_or_fallback msg fb = acceptClamp msg :=
  validate_of_accept fb hne hcc

/-- Witness for C5 (spec scenario 2): an already-valid message with two body
bullets passes through unchanged. -/
theorem claim_C5_witness :
    validate_or_fallback
        (("feat(auth): add token refresh\n- handles expiry\n- adds tests").toList) []
      = ("feat(auth): add token refresh\n- handles expiry\n- adds tests").toList := by
  have h := claim_C5_amended
    (("feat(auth): add token refresh\n- handles expiry\n- adds tests").toList) []
    (by decide) (by decide)
  exact h.trans (by decide)

/-- Counterexample to C1 as stated: the accept branch keeps any subject whose
summary (after the colon and space) has up to 72 characters, so the total
first-line length of a returned message can reach 76 > 72 even with a
non-empty fallback of the required shape. -/
theorem claim_C1_counterexample :
    ccSubjectMatch (("chore: update files").toList) = true
      ∧ (firstSplitline (validate_or_fallback
          (("feat: aaaaaaaaaaaaaaaaaaaaaaaaaaaaaaaaaaaaaaaaaaaaaaaaaaaaaaaaaaaaaaaaaaaaaa").toList)
          (("chore: update files").toList))).length = 76 := by
  refine ⟨by decide, by decide⟩

/-- Claim C1, amended: every value returned by the validator is the fallback
itself, or a message whose first line matches the Conventional Commit subject
pattern (type from the fixed set, optional scope, summary of 1-72 characters,
so the first line can exceed 72 characters in total), or a repaired single
subject line of total length at most 72 whose type token is arbitrary. -/
theorem claim_C1_amended (msg fb : PyStr) :
    validate_or_fallback msg fb = fb
      ∨ ccSubjectMatch (firstSplitline (validate_or_fallback msg fb)) = true
      ∨ ((validate_or_fallback msg fb).length ≤ 72
          ∧ validate_or_fallback msg fb = repairSubject (pyStrip (firstSplitline msg))) := by
  by_cases hne : msg = []
  · subst hne; exact Or.inl (validate_nil fb)
  by_cases herr : (ERROR_PREFIXES.any
      fun p => p.isPrefixOf (lowerStr (pyStrip (firstSplitline msg)))) = true
  · exact Or.inl (validate_of_error fb hne herr)
  rw [Bool.not_eq_true] at herr
  by_cases hcc : ccSubjectMatch (pyStrip (firstSplitline msg)) = true
  · refine Or.inr (Or.inl ?_)
    rw [validate_of_accept fb hne hcc, firstSplitline_acceptClamp hcc]
    exact hcc
  rw [Bool.not_eq_true] at hcc
  by_cases hcol : (pyStrip (firstSplitline msg)).contains ':' = true
  · refine Or.inr (Or.inr ?_)
    rw [validate_of_repair fb hne herr hcc hcol]
    exact ⟨repairSubject_length_le _, rfl⟩
  rw [Bool.not_eq_true] at hcol
  exact Or.inl (validate_of_no_colon fb hne herr hcc hcol)

/-! The claims about the Fallback Generator. -/

theorem fallback_core_ne_nil {ns : PyStr} {v : PyStr} (h : fallback_core ns = some v) :
    v ≠ [] := by
  unfold fallback_core at h
  split at h
  · cases h
    simp [String.toList]
  · cases h

/-- Claim C3: the Fallback Generator never returns an empty string, and the
second-attempt validator call, whose fallback is the Fallback Generator's
output, never returns an empty string for any candidate. -/
theorem claim_C3 (msg ns : PyStr) :
    fallback_message ns ≠ [] ∧ validate_or_fallback msg (fallback_message ns) ≠ [] := by
  have hfb : fallback_message ns ≠ [] := by
    unfold fallback_message
    cases h : fallback_core ns with
    | none => simp
    | some v =>
      simp only [Option.getD_some]
      exact fallback_core_ne_nil h
  exact ⟨hfb, validate_ne_nil msg hfb⟩

theorem seqOpt_cons_some {α : Type} {o : Option α} {os : List (Option α)} {xs : List α} :
    seqOpt (o :: os) = some xs ↔ ∃ a ys, o = some a ∧ seqOpt os = some ys ∧ xs = a :: ys := by
  cases o with
  | none => simp [seqOpt]
  | some a =>
    simp only [seqOpt, Option.map_eq_some']
    constructor
    · rintro ⟨ys, hys, hxs⟩
      exact ⟨a, ys, rfl, hys, hxs.symm⟩
    · rintro ⟨a2, ys, ha2, hys, hxs⟩
      cases ha2
      exact ⟨ys, hys, hxs.symm⟩

theorem numstat_bridge (L : List PyStr) :
    ∀ (files : List PyStr) (addsL delsL : List Int),
    seqOpt (L.map lineFile) = some files →
    seqOpt (L.map lineAdd) = some addsL →
    seqOpt (L.map lineDel) = some delsL →
    ∃ recs, seqOpt (L.map lineRec) = some recs
      ∧ recs.map (fun r => r.2.2) = files
      ∧ recs.map (fun r => r.1) = addsL
      ∧ recs.map (fun r => r.2.1) = delsL := by
  induction L with
  | nil =>
    intro files addsL delsL hf ha hd
    simp only [List.map_nil, seqOpt] at hf ha hd
    cases hf; cases ha; cases hd
    exact ⟨[], rfl, rfl, rfl, rfl⟩
  | cons l L' ih =>
    intro files addsL delsL hf ha hd
    rw [List.map_cons] at hf ha hd
    obtain ⟨path, files', hpath, hf', hfe⟩ := seqOpt_cons_some.mp hf
    obtain ⟨a, addsL', ha1, ha', hae⟩ := seqOpt_cons_some.mp ha
    obtain ⟨d, delsL', hd1, hd', hde⟩ := seqOpt_cons_some.mp hd
    obtain ⟨delf, hdelf, hdint⟩ := Option.bind_eq_some.mp hd1
    obtain ⟨recs', hrecs', hrf, hra, hrd⟩ := ih files' addsL' delsL' hf' ha' hd'
    refine ⟨(a, d, path) :: recs', ?_, ?_, ?_, ?_⟩
    · rw [List.map_cons]
      refine seqOpt_cons_some.mpr ⟨(a, d, path), recs', ?_, hrecs', rfl⟩
      unfold lineFile at hpath
      unfold lineAdd at ha1
      simp only [lineRec, hpath, hdelf, ha1, hdint]
    · rw [List.map_cons, hrf, hfe]
    · rw [List.map_cons, hra, hae]
    · rw [List.map_cons, hrd, hde]

theorem ifMatchNil (X : List PyStr) :
    (if X = [] then ([] : PyStr) else '(' :: joinComma X ++ [')'])
      = (match X with | [] => ([] : PyStr) | chosen => '(' :: joinComma chosen ++ [')']) := by
  cases X with
  | nil => rfl
  | cons x xs => rfl

theorem scopePart_eq_specScope (files : List PyStr) :
    scopePart files = specScope strLt files :=
  ifMatchNil _

/-- Counterexample to C4 as stated: on a parsing numstat with top-level
segments `aa`, `bbb`, `z`, the source picks the lexicographically first two
(`sorted(...)[:2]` gives `aa,bbb`), not the shortest ones (`z,aa`). -/
theorem claim_C4_counterexample :
    (fallback_core (("1\t2\taa/x\n3\t4\tbbb/y\n5\t6\tz/w").toList)).isSome = true
      ∧ fallback_message (("1\t2\taa/x\n3\t4\tbbb/y\n5\t6\tz/w").toList)
          ≠ fallbackSpec shortLexLt (("1\t2\taa/x\n3\t4\tbbb/y\n5\t6\tz/w").toList) := by
  refine ⟨by decide, by decide⟩

/-- Claim C4, amended: for every numstat input that parses without error, the
fallback message is exactly `chore(scope)?: update N files (+A -D)` where the
scope is built from the lexicographically smallest (not shortest) up-to-two
distinct top-level path segments of changed files containing a separator,
omitted when none exist, N is the count of changed files, and A/D are the
summed added/deleted counts with the non-numeric marker counted as zero. -/
theorem claim_C4_amended (ns : PyStr) (h : (fallback_core ns).isSome = true) :
    fallback_message ns = fallbackSpec strLt ns := by
  cases hf : numstatFiles ns with
  | none => unfold fallback_core at h; rw [hf] at h; simp at h
  | some files =>
  cases ha : numstatAdds ns with
  | none => unfold fallback_core at h; rw [hf, ha] at h; simp at h
  | some adds =>
  cases hd : numstatDels ns with
  | none => unfold fallback_core at h; rw [hf, ha, hd] at h; simp at h
  | some dels =>
  have hfL : seqOpt ((tabLines ns).map lineFile) = some files := hf
  have haM := ha
  unfold numstatAdds at haM
  obtain ⟨addsL, haL, haSum⟩ := Option.map_eq_some'.mp haM
  have hdM := hd
  unfold numstatDels at hdM
  obtain ⟨delsL, hdL, hdSum⟩ := Option.map_eq_some'.mp hdM
  obtain ⟨recs, hrecs, hrf, hra, hrd⟩ := numstat_bridge (tabLines ns) files addsL delsL hfL haL hdL
  have hcore : fallback_core ns
      = some (("chore").toList ++ scopePart files ++ (": update ").toList
        ++ natToStr files.length ++ (" files (+").toList ++ intToStr adds
        ++ (" -").toList ++ intToStr dels ++ [')']) := by
    unfold fallback_core
    rw [hf, ha, hd]
  have hspecr : specRecords ns = some recs := hrecs
  unfold fallback_message
  rw [hcore, Option.getD_some]
  unfold fallbackSpec
  rw [hspecr]
  rw [← hrf, scopePart_eq_specScope, List.length_map, ← haSum, ← hra, ← hdSum, ← hrd]

/-- Witness for C4: a numstat with a binary-file marker and one scoped path
parses, and the message matches the amended description. -/
theorem claim_C4_witness :
    fallback_message (("1\t2\tsrc/a.py\n3\t-\tREADME").toList)
      = fallbackSpec strLt (("1\t2\tsrc/a.py\n3\t-\tREADME").toList) :=
  claim_C4_amended (("1\t2\tsrc/a.py\n3\t-\tREADME").toList) (by decide)

/-! Facts about the replacement primitives and substring occurrence. -/

theorem mem_replace1 {x a : Char} {new s : PyStr} (h : x ∈ replace1 a new s) :
    x ∈ s ∨ x ∈ new := by
  induction s with
  | nil => simp [replace1] at h
  | cons c rest ih =>
    unfold replace1 at h
    by_cases hc : c = a
    · rw [if_pos hc] at h
      rcases List.mem_append.mp h with h | h
      · exact Or.inr h
      · rcases ih h with h | h
        · exact Or.inl (List.mem_cons_of_mem c h)
        · exact Or.inr h
    · rw [if_neg hc] at h
      rcases List.mem_cons.mp h with h | h
      · exact Or.inl (h ▸ List.mem_cons_self c rest)
      · rcases ih h with h | h
        · exact Or.inl (List.mem_cons_of_mem c h)
        · exact Or.inr h

theorem not_mem_replace1_self {a : Char} {new s : PyStr} (hn : a ∉ new) :
    a ∉ replace1 a new s := by
  induction s with
  | nil => simp [replace1]
  | cons c rest ih =>
    unfold replace1
    by_cases hc : c = a
    · rw [if_pos hc]
      intro h
      rcases List.mem_append.mp h with h | h
      · exact hn h
      · exact ih h
    · rw [if_neg hc]
      intro h
      rcases List.mem_cons.mp h with h | h
      · exact hc h.symm
      · exact ih h

theorem mem_replace2 {x a b : Char} {new s : PyStr} (h : x ∈ replace2 a b new s) :
    x ∈ s ∨ x ∈ new := by
  induction s using replace2.induct a b new with
  | case1 => simp [replace2] at h
  | case2 c => simpa [replace2] using Or.inl h
  | case3 c d rest hcd ih =>
    rw [replace2, if_pos hcd] at h
    rcases List.mem_append.mp h with h | h
    · exact Or.inr h
    · rcases ih h with h | h
      · exact Or.inl (by simp [List.mem_cons]; tauto)
      · exact Or.inr h
  | case4 c d rest hcd ih =>
    rw [replace2, if_neg hcd] at h
    rcases List.mem_cons.mp h with h | h
    · exact Or.inl (h ▸ List.mem_cons_self _ _)
    · rcases ih h with h | h
      · exact Or.inl (List.mem_cons_of_mem c h)
      · exact Or.inr h

theorem replace3_short {a b c : Char} {new : PyStr} {s : PyStr}
    (hs : ∀ (x y z : Char) (rest : List Char), s = x :: y :: z :: rest → False) :
    replace3 a b c new s = s := by
  match s with
  | [] => rfl
  | [x] => rfl
  | [x, y] => rfl
  | x :: y :: z :: rest => exact (hs x y z rest rfl).elim

theorem mem_replace3 {x a b c : Char} {new s : PyStr} (h : x ∈ replace3 a b c new s) :
    x ∈ s ∨ x ∈ new := by
  induction s using replace3.induct a b c new with
  | case1 p q r rest habc ih =>
    rw [replace3, if_pos habc] at h
    rcases List.mem_append.mp h with h | h
    · exact Or.inr h
    · rcases ih h with h | h
      · refine Or.inl ?_
        simp [List.mem_cons] at h ⊢
        tauto
      · exact Or.inr h
  | case2 p q r rest habc ih =>
    rw [replace3, if_neg habc] at h
    rcases List.mem_cons.mp h with h | h
    · exact Or.inl (h ▸ List.mem_cons_self _ _)
    · rcases ih h with h | h
      · exact Or.inl (List.mem_cons_of_mem p h)
      · exact Or.inr h
  | case3 s hs =>
    rw [replace3_short hs] at h
    exact Or.inl h

theorem replace1_eq_self {a : Char} {new s : PyStr} (h : a ∉ s) :
    replace1 a new s = s := by
  induction s with
  | nil => rfl
  | cons c rest ih =>
    unfold replace1
    rw [if_neg (by intro hc; exact h (hc ▸ List.mem_cons_self c rest)),
      ih (fun hm => h (List.mem_cons_of_mem c hm))]

theorem replace2_eq_self {a b : Char} {new s : PyStr} (h : a ∉ s) :
    replace2 a b new s = s := by
  induction s using replace2.induct a b new with
  | case1 => rfl
  | case2 c => rfl
  | case3 c d rest hcd =>
    exact absurd (hcd.1 ▸ List.mem_cons_self c (d :: rest)) h
  | case4 c d rest hcd ih =>
    rw [replace2, if_neg hcd, ih (fun hm => h (List.mem_cons_of_mem c hm))]

theorem hasSub_iff {pat s : PyStr} :
    hasSub pat s = true ↔ ∃ i, pat.isPrefixOf (s.drop i) = true := by
  induction s with
  | nil =>
    simp only [hasSub]
    constructor
    · intro h; exact ⟨0, h⟩
    · rintro ⟨i, hi⟩; simpa using hi
  | cons c rest ih =>
    simp only [hasSub, Bool.or_eq_true, ih]
    constructor
    · rintro (h | ⟨i, hi⟩)
      · exact ⟨0, h⟩
      · exact ⟨i + 1, hi⟩
    · rintro ⟨i, hi⟩
      cases i with
      | zero => exact Or.inl hi
      | succ j => exact Or.inr ⟨j, hi⟩

theorem hasSub_tail {pat s : PyStr} (c : Char) (h : hasSub pat s = true) :
    hasSub pat (c :: s) = true := by
  unfold hasSub
  cases pat with
  | nil => simp [List.isPrefixOf]
  | cons p ps => simp [h]

theorem hasSub_take {pat l : PyStr} {n : Nat} (h : hasSub pat (l.take n) = true) :
    hasSub pat l = true := by
  obtain ⟨i, hi⟩ := hasSub_iff.mp h
  rw [List.drop_take] at hi
  rw [List.isPrefixOf_iff_prefix] at hi
  refine hasSub_iff.mpr ⟨i, ?_⟩
  rw [List.isPrefixOf_iff_prefix]
  exact hi.trans (List.take_prefix _ _)

theorem prefix_head_mem {c : Char} {q l : PyStr} (h : (c :: q).isPrefixOf l = true) :
    c ∈ l := by
  cases l with
  | nil => simp [List.isPrefixOf] at h
  | cons x xs =>
    simp only [List.isPrefixOf, Bool.and_eq_true, beq_iff_eq] at h
    exact h.1 ▸ List.mem_cons_self x xs

theorem hasSub_append_left_free {c : Char} {p a x : PyStr} (hc : c ∉ a)
    (h : hasSub (c :: p) (a ++ x) = true) : hasSub (c :: p) x = true := by
  obtain ⟨i, hi⟩ := hasSub_iff.mp h
  rw [List.drop_append_eq_append_drop] at hi
  cases hd : a.drop i with
  | nil =>
    rw [hd, List.nil_append] at hi
    exact hasSub_iff.mpr ⟨i - a.length, hi⟩
  | cons y ys =>
    rw [hd, List.cons_append] at hi
    simp only [List.isPrefixOf, Bool.and_eq_true, beq_iff_eq] at hi
    exact absurd ((List.drop_sublist i a).mem (hi.1 ▸ hd ▸ List.mem_cons_self y ys)) hc

theorem hasSub_append_right_free {c : Char} {x b : PyStr} (hc : c ∉ b)
    (h : hasSub [c, c, c] (x ++ b) = true) : hasSub [c, c, c] x = true := by
  obtain ⟨i, hi⟩ := hasSub_iff.mp h
  rw [List.drop_append_eq_append_drop] at hi
  cases hd : x.drop i with
  | nil =>
    rw [hd, List.nil_append] at hi
    exact absurd ((List.drop_sublist _ b).mem (prefix_head_mem hi)) hc
  | cons y ys =>
    rw [hd, List.cons_append] at hi
    simp only [List.isPrefixOf, Bool.and_eq_true, beq_iff_eq] at hi
    obtain ⟨hy, hi2⟩ := hi
    cases hd2 : ys with
    | nil =>
      rw [hd2, List.nil_append] at hi2
      exact absurd ((List.drop_sublist _ b).mem (prefix_head_mem hi2)) hc
    | cons z zs =>
      rw [hd2, List.cons_append] at hi2
      simp only [List.isPrefixOf, Bool.and_eq_true, beq_iff_eq] at hi2
      obtain ⟨hz, hi3⟩ := hi2
      cases hd3 : zs with
      | nil =>
        rw [hd3, List.nil_append] at hi3
        exact absurd ((List.drop_sublist _ b).mem (prefix_head_mem hi3)) hc
      | cons w ws =>
        rw [hd3] at hi3
        simp only [List.isPrefixOf, Bool.and_eq_true, beq_iff_eq] at hi3
        refine hasSub_iff.mpr ⟨i, ?_⟩
        rw [hd, hd2, hd3]
        simp only [List.isPrefixOf, Bool.and_eq_true, beq_iff_eq]
        exact ⟨hy, hz, hi3.1, by simp [List.isPrefixOf]⟩

theorem prefix1_replace3 {c a1 a2 a3 : Char} {new y : PyStr} (hc : c ∉ new) (hne : new ≠ [])
    (h : ([c]).isPrefixOf (replace3 a1 a2 a3 new y) = true) :
    ([c]).isPrefixOf y = true := by
  induction y using replace3.induct a1 a2 a3 new with
  | case1 p q r rest habc ih =>
    rw [replace3, if_pos habc] at h
    cases hn : new with
    | nil => exact absurd hn hne
    | cons n0 ns =>
      rw [hn, List.cons_append] at h
      simp only [List.isPrefixOf, Bool.and_eq_true, beq_iff_eq] at h
      exact absurd (h.1 ▸ hn ▸ List.mem_cons_self n0 ns) hc
  | case2 p q r rest habc ih =>
    rw [replace3, if_neg habc] at h
    simp only [List.isPrefixOf, Bool.and_eq_true, beq_iff_eq] at h ⊢
    exact ⟨h.1, by simp⟩
  | case3 s hs => rw [replace3_short hs] at h; exact h

theorem prefix2_replace3 {c a1 a2 a3 : Char} {new y : PyStr} (hc : c ∉ new) (hne : new ≠ [])
    (h : ([c, c]).isPrefixOf (replace3 a1 a2 a3 new y) = true) :
    ([c, c]).isPrefixOf y = true := by
  induction y using replace3.induct a1 a2 a3 new with
  | case1 p q r rest habc ih =>
    rw [replace3, if_pos habc] at h
    cases hn : new with
    | nil => exact absurd hn hne
    | cons n0 ns =>
      rw [hn, List.cons_append] at h
      simp only [List.isPrefixOf, Bool.and_eq_true, beq_iff_eq] at h
      exact absurd (h.1 ▸ hn ▸ List.mem_cons_self n0 ns) hc
  | case2 p q r rest habc ih =>
    rw [replace3, if_neg habc] at h
    simp only [List.isPrefixOf, Bool.and_eq_true, beq_iff_eq] at h
    have h2 := prefix1_replace3 hc hne (by
      simpa only [List.isPrefixOf, Bool.and_eq_true] using h.2)
    simp only [List.isPrefixOf, Bool.and_eq_true, beq_iff_eq] at h2 ⊢
    exact ⟨h.1, h2.1, by simp⟩
  | case3 s hs => rw [replace3_short hs] at h; exact h

theorem hasSub_short3 {c : Char} {s : PyStr} (h : s.length ≤ 2) :
    hasSub [c, c, c] s = false := by
  match s with
  | [] => simp [hasSub, List.isPrefixOf]
  | [x] => simp [hasSub, List.isPrefixOf]
  | [x, y] => simp [hasSub, List.isPrefixOf]
  | x :: y :: z :: r => simp at h

theorem no_triple_replace3_self {c : Char} {new x : PyStr} (hc : c ∉ new) (hne : new ≠ []) :
    hasSub [c, c, c] (replace3 c c c new x) = false := by
  induction x using replace3.induct c c c new with
  | case1 p q r rest habc ih =>
    rw [replace3, if_pos habc]
    rw [Bool.eq_false_iff]
    intro h
    have h2 := hasSub_append_left_free hc h
    rw [ih] at h2
    exact absurd h2 (by simp)
  | case2 p q r rest habc ih =>
    rw [replace3, if_neg habc]
    rw [Bool.eq_false_iff]
    intro h
    unfold hasSub at h
    rw [Bool.or_eq_true] at h
    rcases h with h | h
    · simp only [List.isPrefixOf, Bool.and_eq_true, beq_iff_eq] at h
      obtain ⟨hp, h2⟩ := h
      have h3 := prefix2_replace3 hc hne (by
        simpa only [List.isPrefixOf, Bool.and_eq_true] using h2)
      simp only [List.isPrefixOf, Bool.and_eq_true, beq_iff_eq] at h3
      exact habc ⟨hp.symm, h3.1.symm, h3.2.1.symm⟩
    · rw [ih] at h
      exact absurd h (by simp)
  | case3 s hs =>
    rw [replace3_short hs]
    cases s with
    | nil => simp [hasSub, List.isPrefixOf]
    | cons p ps =>
      cases ps with
      | nil => simp [hasSub, List.isPrefixOf]
      | cons q qs =>
        cases qs with
        | nil => simp [hasSub, List.isPrefixOf]
        | cons r rs => exact (hs p q r rs rfl).elim

theorem no_triple_replace3_other {c a1 a2 a3 : Char} {new x : PyStr}
    (hx : hasSub [c, c, c] x = false) (hc : c ∉ new) (hne : new ≠ []) :
    hasSub [c, c, c] (replace3 a1 a2 a3 new x) = false := by
  induction x using replace3.induct a1 a2 a3 new with
  | case1 p q r rest habc ih =>
    rw [replace3, if_pos habc]
    rw [Bool.eq_false_iff]
    intro h
    have h2 := hasSub_append_left_free hc h
    have hrest : hasSub [c, c, c] rest = false := by
      rw [Bool.eq_false_iff] at hx ⊢
      intro h3
      exact hx (hasSub_tail p (hasSub_tail q (hasSub_tail r h3)))
    rw [ih hrest] at h2
    exact absurd h2 (by simp)
  | case2 p q r rest habc ih =>
    rw [replace3, if_neg habc]
    rw [Bool.eq_false_iff]
    intro h
    unfold hasSub at h
    rw [Bool.or_eq_true] at h
    rcases h with h | h
    · simp only [List.isPrefixOf, Bool.and_eq_true, beq_iff_eq] at h
      obtain ⟨hp, h2⟩ := h
      have h3 := prefix2_replace3 hc hne (by
        simpa only [List.isPrefixOf, Bool.and_eq_true] using h2)
      rw [Bool.eq_false_iff] at hx
      refine hx ?_
      unfold hasSub
      rw [Bool.or_eq_true]
      refine Or.inl ?_
      simp only [List.isPrefixOf, Bool.and_eq_true, beq_iff_eq] at h3 ⊢
      exact ⟨hp, h3.1, h3.2.1, by simp [List.isPrefixOf]⟩
    · have hrest : hasSub [c, c, c] (q :: r :: rest) = false := by
        rw [Bool.eq_false_iff] at hx ⊢
        intro h3
        exact hx (hasSub_tail p h3)
      rw [ih hrest] at h
      exact absurd h (by simp)
  | case3 s hs =>
    rw [replace3_short hs]
    exact hx

theorem replace3_eq_self {a b c : Char} {new s : PyStr}
    (h : hasSub [a, b, c] s = false) : replace3 a b c new s = s := by
  induction s using replace3.induct a b c new with
  | case1 p q r rest habc ih =>
    rw [Bool.eq_false_iff] at h
    exfalso
    refine h ?_
    unfold hasSub
    rw [Bool.or_eq_true]
    refine Or.inl ?_
    simp only [List.isPrefixOf, Bool.and_eq_true, beq_iff_eq]
    exact ⟨habc.1.symm, habc.2.1.symm, habc.2.2.symm, by simp [List.isPrefixOf]⟩
  | case2 p q r rest habc ih =>
    rw [replace3, if_neg habc]
    have hrest : hasSub [a, b, c] (q :: r :: rest) = false := by
      rw [Bool.eq_false_iff] at h ⊢
      intro h3
      exact h (hasSub_tail p h3)
    rw [ih hrest]
  | case3 s hs => exact replace3_short hs

/-! Facts about the UTF-8 model. -/

theorem utf8Encode_append (a b : PyStr) : utf8Encode (a ++ b) = utf8Encode a ++ utf8Encode b := by
  induction a with
  | nil => rfl
  | cons c s ih => simp [utf8Encode, ih]

theorem toNat_ofNat_valid {n : Nat} (h : n.isValidChar) : (Char.ofNat n).toNat = n := by
  simp only [Char.ofNat, dif_pos h, Char.ofNatAux, Char.toNat]
  rfl

theorem char_eq_of_toNat {a b : Char} (h : a.toNat = b.toNat) : a = b := by
  apply Char.ext
  exact UInt32.toNat.inj h

theorem ofNat_toNat (c : Char) : Char.ofNat c.toNat = c :=
  char_eq_of_toNat (toNat_ofNat_valid c.valid)

theorem char_valid_toNat (c : Char) :
    c.toNat < 55296 ∨ (57343 < c.toNat ∧ c.toNat < 1114112) := c.valid

theorem char_toNat_lt (c : Char) : c.toNat < 1114112 := by
  rcases char_valid_toNat c with h | h
  · omega
  · omega

theorem utf8Bytes_eq1 {c : Char} (h : c.toNat < 128) : utf8Bytes c = [c.toNat] := by
  unfold utf8Bytes
  rw [if_pos h]

theorem utf8Bytes_eq2 {c : Char} (h1 : 128 ≤ c.toNat) (h2 : c.toNat < 2048) :
    utf8Bytes c = [192 + c.toNat / 64, 128 + c.toNat % 64] := by
  unfold utf8Bytes
  rw [if_neg (by omega), if_pos h2]

theorem utf8Bytes_eq3 {c : Char} (h1 : 2048 ≤ c.toNat) (h2 : c.toNat < 65536) :
    utf8Bytes c = [224 + c.toNat / 4096, 128 + (c.toNat / 64) % 64, 128 + c.toNat % 64] := by
  unfold utf8Bytes
  rw [if_neg (by omega), if_neg (by omega), if_pos h2]

theorem utf8Bytes_eq4 {c : Char} (h1 : 65536 ≤ c.toNat) :
    utf8Bytes c = [240 + c.toNat / 262144, 128 + (c.toNat / 4096) % 64,
      128 + (c.toNat / 64) % 64, 128 + c.toNat % 64] := by
  unfold utf8Bytes
  rw [if_neg (by omega), if_neg (by omega), if_neg (by omega)]

theorem decodeAux_irrel : ∀ (f1 : Nat) (bs : List Nat) (f2 : Nat),
    bs.length ≤ f1 → bs.length ≤ f2 → decodeAux f1 bs = decodeAux f2 bs := by
  intro f1
  induction f1 with
  | zero =>
    intro bs f2 h1 h2
    have hbs : bs = [] := List.length_eq_zero.mp (Nat.le_zero.mp h1)
    subst hbs
    cases f2 <;> rfl
  | succ g ih =>
    intro bs f2 h1 h2
    cases bs with
    | nil => cases f2 <;> rfl
    | cons b rest =>
      cases f2 with
      | zero => simp at h2
      | succ g2 =>
        simp only [List.length_cons] at h1 h2
        by_cases hb1 : b < 128
        · simp only [decodeAux, if_pos hb1]
          rw [ih rest g2 (by omega) (by omega)]
        by_cases hb2 : 194 ≤ b ∧ b < 224
        · simp only [decodeAux, if_neg hb1, if_pos hb2]
          cases rest with
          | nil => rfl
          | cons b2 r2 =>
            simp only [List.length_cons] at h1 h2
            by_cases hc : isCont b2 = true
            · simp only [if_pos hc]
              rw [ih r2 g2 (by omega) (by omega)]
            · simp only [if_neg hc]
              rw [ih (b2 :: r2) g2 (by simp; omega) (by simp; omega)]
        by_cases hb3 : 224 ≤ b ∧ b < 240
        · simp only [decodeAux, if_neg hb1, if_neg hb2, if_pos hb3]
          match rest, h1, h2 with
          | [], h1, h2 => simp [decodeAux]
          | [b2], h1, h2 =>
            exact ih [b2] g2 (by simp at h1 ⊢; omega) (by simp at h2 ⊢; omega)
          | b2 :: b3 :: r3, h1, h2 =>
            simp only [List.length_cons] at h1 h2
            by_cases hc : cont3ok b b2 = true ∧ isCont b3 = true
            · simp only [if_pos hc]
              rw [ih r3 g2 (by omega) (by omega)]
            · simp only [if_neg hc]
              rw [ih (b2 :: b3 :: r3) g2 (by simp; omega) (by simp; omega)]
        by_cases hb4 : 240 ≤ b ∧ b < 245
        · simp only [decodeAux, if_neg hb1, if_neg hb2, if_neg hb3, if_pos hb4]
          match rest, h1, h2 with
          | [], h1, h2 => simp [decodeAux]
          | [b2], h1, h2 =>
            exact ih [b2] g2 (by simp at h1 ⊢; omega) (by simp at h2 ⊢; omega)
          | [b2, b3], h1, h2 =>
            exact ih [b2, b3] g2 (by simp at h1 ⊢; omega) (by simp at h2 ⊢; omega)
          | b2 :: b3 :: b4 :: r4, h1, h2 =>
            simp only [List.length_cons] at h1 h2
            by_cases hc : cont4ok b b2 = true ∧ isCont b3 = true ∧ isCont b4 = true
            · simp only [if_pos hc]
              rw [ih r4 g2 (by omega) (by omega)]
            · simp only [if_neg hc]
              rw [ih (b2 :: b3 :: b4 :: r4) g2 (by simp; omega) (by simp; omega)]
        · simp only [decodeAux, if_neg hb1, if_neg hb2, if_neg hb3, if_neg hb4]
          rw [ih rest g2 (by omega) (by omega)]

theorem isCont_bounds {b : Nat} (h : isCont b = true) : 128 ≤ b ∧ b < 192 := by
  simpa [isCont] using h

theorem cont3ok_bounds {b b2 : Nat} (hb : 224 ≤ b ∧ b < 240) (h : cont3ok b b2 = true) :
    (b = 224 → 160 ≤ b2 ∧ b2 < 192) ∧ (b = 237 → 128 ≤ b2 ∧ b2 < 160)
      ∧ (b ≠ 224 → b ≠ 237 → 128 ≤ b2 ∧ b2 < 192) := by
  by_cases h224 : b = 224
  · simp [cont3ok, h224] at h
    refine ⟨fun _ => h, fun h237 => by omega, fun hc _ => absurd h224 hc⟩
  by_cases h237 : b = 237
  · simp [cont3ok, h224, h237] at h
    refine ⟨fun hc => absurd hc h224, fun _ => h, fun _ hc => absurd h237 hc⟩
  · simp [cont3ok, h224, h237] at h
    exact ⟨fun hc => absurd hc h224, fun hc => absurd hc h237,
      fun _ _ => isCont_bounds h⟩

theorem cont4ok_bounds {b b2 : Nat} (hb : 240 ≤ b ∧ b < 245) (h : cont4ok b b2 = true) :
    (b = 240 → 144 ≤ b2 ∧ b2 < 192) ∧ (b = 244 → 128 ≤ b2 ∧ b2 < 144)
      ∧ (b ≠ 240 → b ≠ 244 → 128 ≤ b2 ∧ b2 < 192) := by
  by_cases h240 : b = 240
  · simp [cont4ok, h240] at h
    refine ⟨fun _ => h, fun hc => by omega, fun hc _ => absurd h240 hc⟩
  by_cases h244 : b = 244
  · simp [cont4ok, h240, h244] at h
    refine ⟨fun hc => absurd hc h240, fun _ => h, fun _ hc => absurd h244 hc⟩
  · simp [cont4ok, h240, h244] at h
    exact ⟨fun hc => absurd hc h240, fun hc => absurd hc h244,
      fun _ _ => isCont_bounds h⟩

theorem decodeAux_len : ∀ (f : Nat) (bs : List Nat),
    (utf8Encode (decodeAux f bs)).length ≤ bs.length := by
  intro f
  induction f with
  | zero =>
    intro bs
    cases bs with
    | nil => simp [decodeAux, utf8Encode]
    | cons b rest => simp [decodeAux, utf8Encode]
  | succ g ih =>
    intro bs
    cases bs with
    | nil => simp [decodeAux, utf8Encode]
    | cons b rest =>
      by_cases hb1 : b < 128
      · simp only [decodeAux, if_pos hb1, utf8Encode, List.length_append, List.length_cons]
        have hv : (b : Nat).isValidChar := Or.inl (by omega)
        rw [utf8Bytes_eq1 (by rw [toNat_ofNat_valid hv]; omega)]
        have := ih rest
        simp only [List.length_cons, List.length_nil]
        omega
      by_cases hb2 : 194 ≤ b ∧ b < 224
      · simp only [decodeAux, if_neg hb1, if_pos hb2]
        cases rest with
        | nil => simp [utf8Encode]
        | cons b2 r2 =>
          by_cases hc : isCont b2 = true
          · simp only [if_pos hc, utf8Encode, List.length_append, List.length_cons]
            have hcb := isCont_bounds hc
            have hn : 128 ≤ (b - 192) * 64 + (b2 - 128) ∧ (b - 192) * 64 + (b2 - 128) < 2048 := by
              omega
            have hv : ((b - 192) * 64 + (b2 - 128)).isValidChar := Or.inl (by omega)
            rw [utf8Bytes_eq2 (by rw [toNat_ofNat_valid hv]; omega)
              (by rw [toNat_ofNat_valid hv]; omega)]
            have := ih r2
            simp only [List.length_cons, List.length_nil]
            omega
          · simp only [if_neg hc]
            have := ih (b2 :: r2)
            simp only [List.length_cons] at this ⊢
            omega
      by_cases hb3 : 224 ≤ b ∧ b < 240
      · simp only [decodeAux, if_neg hb1, if_neg hb2, if_pos hb3]
        match rest with
        | [] => simp [decodeAux, utf8Encode]
        | [b2] =>
          have := ih [b2]
          simp only [List.length_cons, List.length_nil] at this ⊢
          omega
        | b2 :: b3 :: r3 =>
          by_cases hc : cont3ok b b2 = true ∧ isCont b3 = true
          · simp only [if_pos hc, utf8Encode, List.length_append, List.length_cons]
            have hc3 := cont3ok_bounds hb3 hc.1
            have hcb3 := isCont_bounds hc.2
            set n := (b - 224) * 4096 + (b2 - 128) * 64 + (b3 - 128) with hn
            have hrange : 2048 ≤ n ∧ n < 65536 ∧ (n < 55296 ∨ 57343 < n) := by
              by_cases h224 : b = 224
              · have := hc3.1 h224; omega
              by_cases h237 : b = 237
              · have := hc3.2.1 h237; omega
              · have := hc3.2.2 h224 h237; omega
            have hv : n.isValidChar := by
              rcases hrange.2.2 with h | h
              · exact Or.inl h
              · exact Or.inr ⟨h, by omega⟩
            rw [utf8Bytes_eq3 (by rw [toNat_ofNat_valid hv]; omega)
              (by rw [toNat_ofNat_valid hv]; omega)]
            have := ih r3
            simp only [List.length_cons, List.length_nil]
            omega
          · simp only [if_neg hc]
            have := ih (b2 :: b3 :: r3)
            simp only [List.length_cons] at this ⊢
            omega
      by_cases hb4 : 240 ≤ b ∧ b < 245
      · simp only [decodeAux, if_neg hb1, if_neg hb2, if_neg hb3, if_pos hb4]
        match rest with
        | [] => simp [decodeAux, utf8Encode]
        | [b2] =>
          have := ih [b2]
          simp only [List.length_cons, List.length_nil] at this ⊢
          omega
        | [b2, b3] =>
          have := ih [b2, b3]
          simp only [List.length_cons, List.length_nil] at this ⊢
          omega
        | b2 :: b3 :: b4 :: r4 =>
          by_cases hc : cont4ok b b2 = true ∧ isCont b3 = true ∧ isCont b4 = true
          · simp only [if_pos hc, utf8Encode, List.length_append, List.length_cons]
            have hc4 := cont4ok_bounds hb4 hc.1
            have hcb3 := isCont_bounds hc.2.1
            have hcb4 := isCont_bounds hc.2.2
            set n := (b - 240) * 262144 + (b2 - 128) * 4096 + (b3 - 128) * 64 + (b4 - 128) with hn
            have hrange : 65536 ≤ n ∧ n < 1114112 := by
              by_cases h240 : b = 240
              · have := hc4.1 h240; omega
              by_cases h244 : b = 244
              · have := hc4.2.1 h244; omega
              · have := hc4.2.2 h240 h244; omega
            have hv : n.isValidChar := Or.inr ⟨by omega, by omega⟩
            rw [utf8Bytes_eq4 (by rw [toNat_ofNat_valid hv]; omega)]
            have := ih r4
            simp only [List.length_cons, List.length_nil]
            omega
          · simp only [if_neg hc]
            have := ih (b2 :: b3 :: b4 :: r4)
            simp only [List.length_cons] at this ⊢
            omega
      · simp only [decodeAux, if_neg hb1, if_neg hb2, if_neg hb3, if_neg hb4]
        have := ih rest
        simp only [List.length_cons]
        omega

theorem decode_bytes (c : Char) (rest : List Nat) :
    utf8DecodeIgnore (utf8Bytes c ++ rest) = c :: utf8DecodeIgnore rest := by
  have hv := char_valid_toNat c
  have hlt := char_toNat_lt c
  unfold utf8DecodeIgnore
  by_cases h1 : c.toNat < 128
  · rw [utf8Bytes_eq1 h1]
    simp only [List.cons_append, List.nil_append, List.length_cons]
    simp only [decodeAux, if_pos h1, ofNat_toNat]
  by_cases h2 : c.toNat < 2048
  · rw [utf8Bytes_eq2 (by omega) h2]
    simp only [List.cons_append, List.nil_append, List.length_cons]
    have e1 : ¬(192 + c.toNat / 64 < 128) := by omega
    have e2 : 194 ≤ 192 + c.toNat / 64 ∧ 192 + c.toNat / 64 < 224 := by omega
    have e3 : isCont (128 + c.toNat % 64) = true := by simp [isCont]; omega
    simp only [decodeAux, if_neg e1, if_pos e2, if_pos e3]
    have e4 : (192 + c.toNat / 64 - 192) * 64 + (128 + c.toNat % 64 - 128) = c.toNat := by
      omega
    rw [e4, ofNat_toNat]
    rw [decodeAux_irrel (rest.length + 1) rest rest.length (by omega) (by omega)]
  by_cases h3 : c.toNat < 65536
  · rw [utf8Bytes_eq3 (by omega) h3]
    simp only [List.cons_append, List.nil_append, List.length_cons]
    have hdd : c.toNat / 64 / 64 = c.toNat / 4096 := by
      rw [Nat.div_div_eq_div_mul]
    have e1 : ¬(224 + c.toNat / 4096 < 128) := by omega
    have e2 : ¬(194 ≤ 224 + c.toNat / 4096 ∧ 224 + c.toNat / 4096 < 224) := by omega
    have e3 : 224 ≤ 224 + c.toNat / 4096 ∧ 224 + c.toNat / 4096 < 240 := by omega
    have e4 : cont3ok (224 + c.toNat / 4096) (128 + c.toNat / 64 % 64) = true := by
      unfold cont3ok
      split_ifs with ha hb
      · simp only [decide_eq_true_eq]
        omega
      · simp only [decide_eq_true_eq]
        omega
      · simp only [isCont, decide_eq_true_eq]
        omega
    have e5 : isCont (128 + c.toNat % 64) = true := by simp [isCont]; omega
    simp only [decodeAux, if_neg e1, if_neg e2, if_pos e3, e4, e5, and_self, if_pos]
    have e6 : (224 + c.toNat / 4096 - 224) * 4096 + (128 + c.toNat / 64 % 64 - 128) * 64
        + (128 + c.toNat % 64 - 128) = c.toNat := by
      omega
    rw [e6, ofNat_toNat]
    rw [decodeAux_irrel (rest.length + 1 + 1) rest rest.length (by omega) (by omega)]
  · rw [utf8Bytes_eq4 (by omega)]
    simp only [List.cons_append, List.nil_append, List.length_cons]
    have hdd : c.toNat / 64 / 64 = c.toNat / 4096 := by
      rw [Nat.div_div_eq_div_mul]
    have hdd2 : c.toNat / 4096 / 64 = c.toNat / 262144 := by
      rw [Nat.div_div_eq_div_mul]
    have e1 : ¬(240 + c.toNat / 262144 < 128) := by omega
    have e2 : ¬(194 ≤ 240 + c.toNat / 262144 ∧ 240 + c.toNat / 262144 < 224) := by omega
    have e3 : ¬(224 ≤ 240 + c.toNat / 262144 ∧ 240 + c.toNat / 262144 < 240) := by omega
    have e4 : 240 ≤ 240 + c.toNat / 262144 ∧ 240 + c.toNat / 262144 < 245 := by omega
    have e5 : cont4ok (240 + c.toNat / 262144) (128 + c.toNat / 4096 % 64) = true := by
      unfold cont4ok
      split_ifs with ha hb
      · simp only [decide_eq_true_eq]
        omega
      · simp only [decide_eq_true_eq]
        omega
      · simp only [isCont, decide_eq_true_eq]
        omega
    have e6 : isCont (128 + c.toNat / 64 % 64) = true := by simp [isCont]; omega
    have e7 : isCont (128 + c.toNat % 64) = true := by simp [isCont]; omega
    simp only [decodeAux, if_neg e1, if_neg e2, if_neg e3, if_pos e4, e5, e6, e7, and_self,
      if_pos]
    have e8 : (240 + c.toNat / 262144 - 240) * 262144 + (128 + c.toNat / 4096 % 64 - 128) * 4096
        + (128 + c.toNat / 64 % 64 - 128) * 64 + (128 + c.toNat % 64 - 128) = c.toNat := by
      omega
    rw [e8, ofNat_toNat]
    rw [decodeAux_irrel (rest.length + 1 + 1 + 1) rest rest.length (by omega) (by omega)]

theorem decode_encode (s : PyStr) : utf8DecodeIgnore (utf8Encode s) = s := by
  induction s with
  | nil => rfl
  | cons c s' ih =>
    show utf8DecodeIgnore (utf8Bytes c ++ utf8Encode s') = c :: s'
    rw [decode_bytes, ih]

theorem decodeAux_conts : ∀ (f : Nat) (bs : List Nat),
    (∀ b ∈ bs, 128 ≤ b ∧ b < 192) → decodeAux f bs = [] := by
  intro f
  induction f with
  | zero =>
    intro bs hbs
    cases bs <;> rfl
  | succ g ih =>
    intro bs hbs
    cases bs with
    | nil => rfl
    | cons b rest =>
      have hb := hbs b (List.mem_cons_self b rest)
      have e1 : ¬(b < 128) := by omega
      have e2 : ¬(194 ≤ b ∧ b < 224) := by omega
      have e3 : ¬(224 ≤ b ∧ b < 240) := by omega
      have e4 : ¬(240 ≤ b ∧ b < 245) := by omega
      simp only [decodeAux, if_neg e1, if_neg e2, if_neg e3, if_neg e4]
      exact ih rest (fun x hx => hbs x (List.mem_cons_of_mem b hx))

theorem decode_bytes_cut (c : Char) {k : Nat} (hk : k < (utf8Bytes c).length) :
    utf8DecodeIgnore ((utf8Bytes c).take k) = [] := by
  have hv := char_valid_toNat c
  have hlt := char_toNat_lt c
  by_cases h1 : c.toNat < 128
  · rw [utf8Bytes_eq1 h1] at hk ⊢
    simp at hk
    subst hk
    rfl
  by_cases h2 : c.toNat < 2048
  · rw [utf8Bytes_eq2 (by omega) h2] at hk ⊢
    simp only [List.length_cons, List.length_nil] at hk
    match k, hk with
    | 0, _ => rfl
    | 1, _ =>
      show utf8DecodeIgnore [192 + c.toNat / 64] = []
      unfold utf8DecodeIgnore
      simp only [List.length_cons, List.length_nil]
      have e1 : ¬(192 + c.toNat / 64 < 128) := by omega
      have e2 : 194 ≤ 192 + c.toNat / 64 ∧ 192 + c.toNat / 64 < 224 := by omega
      simp only [decodeAux, if_neg e1, if_pos e2]
  by_cases h3 : c.toNat < 65536
  · rw [utf8Bytes_eq3 (by omega) h3] at hk ⊢
    simp only [List.length_cons, List.length_nil] at hk
    have hdd : c.toNat / 64 / 64 = c.toNat / 4096 := by rw [Nat.div_div_eq_div_mul]
    have e1 : ¬(224 + c.toNat / 4096 < 128) := by omega
    have e2 : ¬(194 ≤ 224 + c.toNat / 4096 ∧ 224 + c.toNat / 4096 < 224) := by omega
    have e3 : 224 ≤ 224 + c.toNat / 4096 ∧ 224 + c.toNat / 4096 < 240 := by omega
    match k, hk with
    | 0, _ => rfl
    | 1, _ =>
      show utf8DecodeIgnore [224 + c.toNat / 4096] = []
      unfold utf8DecodeIgnore
      simp only [List.length_cons, List.length_nil]
      simp only [decodeAux, if_neg e1, if_neg e2, if_pos e3]
    | 2, _ =>
      show utf8DecodeIgnore [224 + c.toNat / 4096, 128 + c.toNat / 64 % 64] = []
      unfold utf8DecodeIgnore
      simp only [List.length_cons, List.length_nil]
      simp only [decodeAux, if_neg e1, if_neg e2, if_pos e3]
      exact decodeAux_conts 1 [128 + c.toNat / 64 % 64] (by
        intro x hx
        simp at hx
        omega)
  · rw [utf8Bytes_eq4 (by omega)] at hk ⊢
    simp only [List.length_cons, List.length_nil] at hk
    have hdd : c.toNat / 64 / 64 = c.toNat / 4096 := by rw [Nat.div_div_eq_div_mul]
    have hdd2 : c.toNat / 4096 / 64 = c.toNat / 262144 := by rw [Nat.div_div_eq_div_mul]
    have e1 : ¬(240 + c.toNat / 262144 < 128) := by omega
    have e2 : ¬(194 ≤ 240 + c.toNat / 262144 ∧ 240 + c.toNat / 262144 < 224) := by omega
    have e3 : ¬(224 ≤ 240 + c.toNat / 262144 ∧ 240 + c.toNat / 262144 < 240) := by omega
    have e4 : 240 ≤ 240 + c.toNat / 262144 ∧ 240 + c.toNat / 262144 < 245 := by omega
    match k, hk with
    | 0, _ => rfl
    | 1, _ =>
      show utf8DecodeIgnore [240 + c.toNat / 262144] = []
      unfold utf8DecodeIgnore
      simp only [List.length_cons, List.length_nil]
      simp only [decodeAux, if_neg e1, if_neg e2, if_neg e3, if_pos e4]
    | 2, _ =>
      show utf8DecodeIgnore [240 + c.toNat / 262144, 128 + c.toNat / 4096 % 64] = []
      unfold utf8DecodeIgnore
      simp only [List.length_cons, List.length_nil]
      simp only [decodeAux, if_neg e1, if_neg e2, if_neg e3, if_pos e4]
      exact decodeAux_conts 1 [128 + c.toNat / 4096 % 64] (by
        intro x hx
        simp at hx
        omega)
    | 3, _ =>
      show utf8DecodeIgnore [240 + c.toNat / 262144, 128 + c.toNat / 4096 % 64,
        128 + c.toNat / 64 % 64] = []
      unfold utf8DecodeIgnore
      simp only [List.length_cons, List.length_nil]
      simp only [decodeAux, if_neg e1, if_neg e2, if_neg e3, if_pos e4]
      exact decodeAux_conts 2 [128 + c.toNat / 4096 % 64, 128 + c.toNat / 64 % 64] (by
        intro x hx
        simp at hx
        rcases hx with hx | hx <;> omega)

theorem decode_take_encode : ∀ (s : PyStr) (k : Nat),
    ∃ m, utf8DecodeIgnore ((utf8Encode s).take k) = s.take m := by
  intro s
  induction s with
  | nil =>
    intro k
    exact ⟨0, by simp [utf8Encode]; rfl⟩
  | cons c s' ih =>
    intro k
    show ∃ m, utf8DecodeIgnore ((utf8Bytes c ++ utf8Encode s').take k) = (c :: s').take m
    rw [List.take_append_eq_append_take]
    by_cases hk : (utf8Bytes c).length ≤ k
    · rw [List.take_of_length_le hk, decode_bytes]
      obtain ⟨m, hm⟩ := ih (k - (utf8Bytes c).length)
      refine ⟨m + 1, ?_⟩
      rw [hm, List.take_succ_cons]
    · rw [Nat.not_le] at hk
      have h0 : k - (utf8Bytes c).length = 0 := by omega
      rw [h0]
      simp only [List.take_zero, List.append_nil]
      exact ⟨0, by rw [decode_bytes_cut c hk]; rfl⟩

theorem decode_len (bs : List Nat) :
    (utf8Encode (utf8DecodeIgnore bs)).length ≤ bs.length :=
  decodeAux_len bs.length bs

theorem wrap_clamp_len (t4 : PyStr) (B : Nat) :
    (utf8Encode (wrapDiff (clampBytes t4 B))).length ≤ B + sanitizeOverheadBytes := by
  unfold wrapDiff sanitizeOverheadBytes clampBytes
  rw [utf8Encode_append, utf8Encode_append]
  simp only [List.length_append]
  by_cases hcl : B < (utf8Encode t4).length
  · rw [if_pos hcl, utf8Encode_append]
    simp only [List.length_append]
    have h1 := decode_len ((utf8Encode t4).take B)
    have h2 := List.length_take_le B (utf8Encode t4)
    omega
  · rw [if_neg hcl, decode_encode]
    rw [Nat.not_lt] at hcl
    omega

/-- Claim C2: for every byte budget, every input diff and every normalization
function, the UTF-8 byte length of the sanitizer's output exceeds the budget
by at most the fixed wrapper-plus-truncation-marker overhead: the clamp
truncates the encoded text at a UTF-8-safe boundary after all replacement
steps. -/
theorem claim_C2 (nfc : PyStr → PyStr) (D : PyStr) (B : Nat) :
    (utf8Encode (sanitize_blob nfc D B)).length ≤ B + sanitizeOverheadBytes := by
  unfold sanitize_blob
  by_cases hD : D = []
  · rw [if_pos hD]
    simp [utf8Encode]
  · rw [if_neg hD]
    exact wrap_clamp_len (sanitizeBody nfc D) B

/-! The sanitizer applied to its own output (claim C7). -/

theorem sanitize_inner_props (nfc : PyStr → PyStr) (D : PyStr) (B : Nat)
    (hnul : ∀ t, '\u0000' ∉ t → '\u0000' ∉ nfc t)
    (hcr : ∀ t, '\u000d' ∉ t → '\u000d' ∉ nfc t)
    (hne : D ≠ []) :
    ∃ X, sanitize_blob nfc D B = wrapDiff X
      ∧ '\u0000' ∉ X ∧ '\u000d' ∉ X
      ∧ hasSub [bq, bq, bq] X = false
      ∧ hasSub ['~', '~', '~'] X = false := by
  have ht1nul : '\u0000' ∉ replace1 '\u0000' [] D :=
    not_mem_replace1_self (by simp)
  have ht2nul : '\u0000' ∉ replace1 '\u000d' ['\n']
      (replace2 '\u000d' '\n' ['\n'] (replace1 '\u0000' [] D)) := by
    intro h
    rcases mem_replace1 h with h | h
    · rcases mem_replace2 h with h | h
      · exact ht1nul h
      · simp at h
    · simp at h
  have ht2cr : '\u000d' ∉ replace1 '\u000d' ['\n']
      (replace2 '\u000d' '\n' ['\n'] (replace1 '\u0000' [] D)) :=
    not_mem_replace1_self (by decide)
  have ht3nul := hnul _ ht2nul
  have ht3cr := hcr _ ht2cr
  set t3 := nfc (replace1 '\u000d' ['\n']
    (replace2 '\u000d' '\n' ['\n'] (replace1 '\u0000' [] D))) with ht3
  set t4 := replace3 '~' '~' '~' fenceTilde (replace3 bq bq bq fenceBack t3) with ht4
  have ht4nul : '\u0000' ∉ t4 := by
    intro h
    rcases mem_replace3 h with h | h
    · rcases mem_replace3 h with h | h
      · exact ht3nul h
      · exact absurd h (by decide)
    · exact absurd h (by decide)
  have ht4cr : '\u000d' ∉ t4 := by
    intro h
    rcases mem_replace3 h with h | h
    · rcases mem_replace3 h with h | h
      · exact ht3cr h
      · exact absurd h (by decide)
    · exact absurd h (by decide)
  have ht4bq : hasSub [bq, bq, bq] t4 = false :=
    no_triple_replace3_other (no_triple_replace3_self (by decide) (by decide))
      (by decide) (by decide)
  have ht4tl : hasSub ['~', '~', '~'] t4 = false :=
    no_triple_replace3_self (by decide) (by decide)
  have hbody : sanitizeBody nfc D = t4 := rfl
  by_cases hcl : B < (utf8Encode t4).length
  · obtain ⟨m, hm⟩ := decode_take_encode t4 B
    refine ⟨utf8DecodeIgnore ((utf8Encode t4).take B) ++ truncMarker, ?_, ?_, ?_, ?_, ?_⟩
    · unfold sanitize_blob
      rw [if_neg hne, hbody]
      unfold clampBytes
      rw [if_pos hcl]
    · rw [hm]
      intro h
      rcases List.mem_append.mp h with h | h
      · exact ht4nul (List.mem_of_mem_take h)
      · exact absurd h (by decide)
    · rw [hm]
      intro h
      rcases List.mem_append.mp h with h | h
      · exact ht4cr (List.mem_of_mem_take h)
      · exact absurd h (by decide)
    · rw [hm, Bool.eq_false_iff]
      intro h
      have h2 := hasSub_append_right_free (by decide) h
      rw [Bool.eq_false_iff] at ht4bq
      exact ht4bq (hasSub_take h2)
    · rw [hm, Bool.eq_false_iff]
      intro h
      have h2 := hasSub_append_right_free (by decide) h
      rw [Bool.eq_false_iff] at ht4tl
      exact ht4tl (hasSub_take h2)
  · refine ⟨t4, ?_, ht4nul, ht4cr, ht4bq, ht4tl⟩
    unfold sanitize_blob
    rw [if_neg hne, hbody]
    unfold clampBytes
    rw [if_neg hcl, decode_encode]

theorem wrapDiff_nul_free {X : PyStr} (h : '\u0000' ∉ X) : '\u0000' ∉ wrapDiff X := by
  intro hm
  unfold wrapDiff at hm
  rcases List.mem_append.mp hm with hm | hm
  · rcases List.mem_append.mp hm with hm | hm
    · exact absurd hm (by decide)
    · exact h hm
  · exact absurd hm (by decide)

theorem wrapDiff_cr_free {X : PyStr} (h : '\u000d' ∉ X) : '\u000d' ∉ wrapDiff X := by
  intro hm
  unfold wrapDiff at hm
  rcases List.mem_append.mp hm with hm | hm
  · rcases List.mem_append.mp hm with hm | hm
    · exact absurd hm (by decide)
    · exact h hm
  · exact absurd hm (by decide)

theorem wrapDiff_triple_free {c : Char} {X : PyStr} (hh : c ∉ wrapHead) (ht : c ∉ wrapTail)
    (h : hasSub [c, c, c] X = false) : hasSub [c, c, c] (wrapDiff X) = false := by
  rw [Bool.eq_false_iff] at h ⊢
  intro h2
  unfold wrapDiff at h2
  rw [List.append_assoc] at h2
  have h3 := hasSub_append_left_free hh h2
  exact h (hasSub_append_right_free ht h3)

/-- Counterexample to C7 as stated: on pure-ASCII input (where NFC is the
identity) with a generous budget, the sanitizer's output respects the budget,
yet re-sanitizing it wraps it in a second opaque block instead of leaving it
unchanged. -/
theorem claim_C7_counterexample :
    (utf8Encode (sanitize_blob id (("a").toList) 100)).length ≤ 100
      ∧ sanitize_blob id (sanitize_blob id (("a").toList) 100) 100
          ≠ sanitize_blob id (("a").toList) 100 := by
  refine ⟨by decide, by decide⟩

/-- Claim C7, amended: the sanitizer is not idempotent.  On already-sanitized,
budget-respecting output (for a normalization function that fixes that output
and introduces no NUL or carriage-return characters), every inner step of a
second application is the identity — strip NULs, normalize newlines,
normalize unicode, replace code fences, clamp — but the wrapper is applied
again, so the second application returns the old output wrapped in one more
opaque block. -/
theorem claim_C7_amended (nfc : PyStr → PyStr) (D : PyStr) (B : Nat)
    (hnul : ∀ t, '\u0000' ∉ t → '\u0000' ∉ nfc t)
    (hcr : ∀ t, '\u000d' ∉ t → '\u000d' ∉ nfc t)
    (hfix : nfc (sanitize_blob nfc D B) = sanitize_blob nfc D B)
    (hbudget : (utf8Encode (sanitize_blob nfc D B)).length ≤ B)
    (hne : D ≠ []) :
    sanitize_blob nfc (sanitize_blob nfc D B) B = wrapDiff (sanitize_blob nfc D B) := by
  obtain ⟨X, hX, hXnul, hXcr, hXbq, hXtl⟩ := sanitize_inner_props nfc D B hnul hcr hne
  have hsnul : '\u0000' ∉ sanitize_blob nfc D B := by rw [hX]; exact wrapDiff_nul_free hXnul
  have hscr : '\u000d' ∉ sanitize_blob nfc D B := by rw [hX]; exact wrapDiff_cr_free hXcr
  have hsbq : hasSub [bq, bq, bq] (sanitize_blob nfc D B) = false := by
    rw [hX]; exact wrapDiff_triple_free (by decide) (by decide) hXbq
  have hstl : hasSub ['~', '~', '~'] (sanitize_blob nfc D B) = false := by
    rw [hX]; exact wrapDiff_triple_free (by decide) (by decide) hXtl
  set s := sanitize_blob nfc D B with hs
  have hsne : s ≠ [] := by
    rw [hX]
    unfold wrapDiff wrapHead
    simp
  have e1 : replace1 '\u0000' [] s = s := replace1_eq_self hsnul
  have e2 : replace2 '\u000d' '\n' ['\n'] s = s := replace2_eq_self hscr
  have e3 : replace1 '\u000d' ['\n'] s = s := replace1_eq_self hscr
  have e5 : replace3 bq bq bq fenceBack s = s := replace3_eq_self hsbq
  have e6 : replace3 '~' '~' '~' fenceTilde s = s := replace3_eq_self hstl
  have hbody : sanitizeBody nfc s = s := by
    unfold sanitizeBody
    rw [e1, e2, e3, hfix, e5, e6]
  have step : sanitize_blob nfc s B = wrapDiff (clampBytes s B) := by
    unfold sanitize_blob
    rw [if_neg hsne, hbody]
  rw [step]
  unfold clampBytes
  rw [if_neg (by omega), decode_encode]

/-- Witness for the amended C7: with the identity normalization (correct on
this pure-ASCII data), re-sanitizing the output for the one-character diff
under budget 100 yields exactly that output wrapped in a second block. -/
theorem claim_C7_witness :
    sanitize_blob id (sanitize_blob id (("a").toList) 100) 100
      = wrapDiff (sanitize_blob id (("a").toList) 100) := by
  have h := claim_C7_amended id (("a").toList) 100
    (fun t ht => ht) (fun t ht => ht) rfl (by decide) (by decide)
  exact h

/-! The claims about the providers (claim C6). -/

/-- Counterexample to C6 as stated: a reply body that parses as JSON but has
an unexpected structure raises an exception past `generate`.  A top-level
array makes `obj.get` raise AttributeError in the Ollama variant, and an
empty `choices` list makes `[0]` raise IndexError in the OpenAI variant
(caught only by the orchestrator's `gen_once`, outside the provider). -/
theorem claim_C6_counterexample :
    ollamaGenerate (.success (some (.jarr [])) (("[]").toList)) = .error .attributeError
      ∧ openaiGenerate (some (("k").toList))
          (.success (some (.jobj [((("choices").toList), .jarr [])])) (("x").toList))
        = .error .indexError :=
  ⟨rfl, rfl⟩

/-- Claim C6, amended: on network failures, HTTP errors, request exceptions
and response bodies that fail JSON parsing entirely (including the
best-effort extraction of a last top-level object), every provider variant
returns the empty string without raising; structurally unexpected parsed
replies, however, can raise past the provider (see the counterexample). -/
theorem claim_C6_amended (key : Option PyStr) (o : PostOutcome)
    (h : (postJson o).1 = none) :
    ollamaGenerate o = .ok [] ∧ openaiGenerate key o = .ok []
      ∧ geminiGenerate key o = .ok [] := by
  refine ⟨?_, ?_, ?_⟩
  · unfold ollamaGenerate
    rw [h]
  · unfold openaiGenerate
    by_cases hk : key = none ∨ key = some []
    · rw [if_pos hk]
    · rw [if_neg hk, h]
  · unfold geminiGenerate
    by_cases hk : key = none ∨ key = some []
    · rw [if_pos hk]
    · rw [if_neg hk, h]

/-- Witness for the amended C6: a failed HTTP request yields the empty string
from all three providers. -/
theorem claim_C6_witness :
    ollamaGenerate (.httpError (("boom").toList)) = .ok []
      ∧ openaiGenerate (some (("k").toList)) (.httpError (("boom").toList)) = .ok []
      ∧ geminiGenerate (some (("k").toList)) (.httpError (("boom").toList)) = .ok [] :=
  claim_C6_amended (some (("k").toList)) (.httpError (("boom").toList)) rfl
